import Mathlib

/-!
Verification of the Avro-compatible serialization engine specified for the
avro-simple benchmark repository.  The repository's own source holds only the
benchmark harness (schema literal, record generator, argument handling, the
container write/read loop and temp-file cleanup); the codec itself is the
external Avro library, so the codec is modelled here from the specification
text (varint zigzag integers, schema-directed value codec, container file
format), while the harness functions (create_person, main argument handling,
benchmark_container cleanup) are translated from the Python source.
-/

namespace AvroSpec

/-- Modelled from the spec: the error taxonomy of section 7. -/
inductive AvroError where
  | TruncatedInput
  | VarintOverflow
  | NegativeLength
  | InvalidUtf8
  | InvalidBoolean
  | SchemaValueMismatch
  | InvalidUnionIndex
  | InvalidEnumIndex
  | InvalidMagic
  | UnknownCodec
  | SyncMarkerMismatch
  | TruncatedContainer
  | SchemaSyntaxError
  deriving DecidableEq, Repr

/-- Modelled from the spec: base-128 varint emission, low 7 bits first,
continuation bit set on all but the final byte.  Fuel-indexed so that the
recursion is structural; the wrapper supplies sufficient fuel. -/
def varintEncodeAux : Nat → Nat → List Nat
  | 0, _ => []
  | fuel + 1, n => if n < 128 then [n] else (n % 128 + 128) :: varintEncodeAux fuel (n / 128)

/-- Modelled from the spec: base-128 varint encoding of an unsigned value. -/
def varintEncode (n : Nat) : List Nat :=
  varintEncodeAux (n + 1) n

/-- Modelled from the spec: bounded varint reading; fails with TruncatedInput
when the stream ends before a terminating byte, and with VarintOverflow when
the byte budget (10 for a 64-bit value) is exhausted. -/
def varintDecodeAux : Nat → List Nat → Except AvroError (Nat × List Nat)
  | 0, _ => .error .VarintOverflow
  | _ + 1, [] => .error .TruncatedInput
  | fuel + 1, b :: rest =>
    if b < 128 then .ok (b, rest)
    else
      match varintDecodeAux fuel rest with
      | .ok (m, r) => .ok (m * 128 + (b - 128), r)
      | .error e => .error e

/-- Modelled from the spec: map signed 64-bit n to the zigzag unsigned value
`(n <<< 1) ^^^ (n >>> 63)`, computed in 64-bit two's-complement arithmetic;
`/` on Int is floor division for a positive divisor, which is exactly the
arithmetic right shift. -/
def zigzag (n : Int) : Nat :=
  (((2 * n) % (2 ^ 64)).toNat) ^^^ (((n / (2 ^ 63)) % (2 ^ 64)).toNat)

/-- Modelled from the spec: the inverse of the zigzag map. -/
def unzigzag (m : Nat) : Int :=
  if m % 2 = 0 then ((m / 2 : Nat) : Int) else -((m / 2 : Nat) : Int) - 1

/-- Modelled from the spec: `encode_varint_zigzag(i64) -> bytes`. -/
def encode_varint_zigzag (n : Int) : List Nat :=
  varintEncode (zigzag n)

/-- Modelled from the spec: `decode_varint_zigzag(stream) -> i64`, the exact
inverse, with a 10-byte budget before VarintOverflow. -/
def decode_varint_zigzag (input : List Nat) : Except AvroError (Int × List Nat) :=
  match varintDecodeAux 10 input with
  | .ok (m, rest) => .ok (unzigzag m, rest)
  | .error e => .error e

theorem xor_two_pow_sub_one (w : Nat) :
    ∀ a : Nat, a < 2 ^ w → a ^^^ (2 ^ w - 1) = 2 ^ w - 1 - a := by
  induction w with
  | zero =>
    intro a ha
    have : a = 0 := by omega
    simp [this]
  | succ w ih =>
    intro a ha
    have hpow : 2 ^ (w + 1) = 2 * 2 ^ w := by ring
    have h1 : (1 : Nat) ≤ 2 ^ w := Nat.one_le_two_pow
    have hhalf : (2 ^ (w + 1) - 1) / 2 = 2 ^ w - 1 := by omega
    have hmod : (2 ^ (w + 1) - 1) % 2 = 1 := by omega
    have hdiv : (a ^^^ (2 ^ (w + 1) - 1)) / 2 = a / 2 ^^^ (2 ^ w - 1) := by
      rw [Nat.xor_div_two, hhalf]
    have hadiv : a / 2 < 2 ^ w := by omega
    have hih := ih (a / 2) hadiv
    have hpar : ((a ^^^ (2 ^ (w + 1) - 1)) % 2 = 1) ↔ ¬ ((a % 2 = 1) ↔ ((2 ^ (w + 1) - 1) % 2 = 1)) :=
      Nat.xor_mod_two_eq_one
    have hx2 : (a ^^^ (2 ^ (w + 1) - 1)) % 2 < 2 := Nat.mod_lt _ (by omega)
    have hxval : a ^^^ (2 ^ (w + 1) - 1)
        = 2 * ((a ^^^ (2 ^ (w + 1) - 1)) / 2) + (a ^^^ (2 ^ (w + 1) - 1)) % 2 := by
      omega
    rw [hdiv, hih] at hxval
    rcases (by omega : a % 2 = 0 ∨ a % 2 = 1) with h0 | h1'
    · have : (a ^^^ (2 ^ (w + 1) - 1)) % 2 = 1 := by
        rw [hpar, hmod]
        omega
      omega
    · have : (a ^^^ (2 ^ (w + 1) - 1)) % 2 = 0 := by
        rcases (by omega : (a ^^^ (2 ^ (w + 1) - 1)) % 2 = 0 ∨ (a ^^^ (2 ^ (w + 1) - 1)) % 2 = 1)
            with h | h
        · exact h
        · exfalso
          have := hpar.mp h
          rw [hmod] at this
          omega
      omega

theorem zigzag_nonneg (n : Int) (h0 : 0 ≤ n) (h1 : n < 2 ^ 63) :
    zigzag n = (2 * n).toNat := by
  unfold zigzag
  have hd : n / (2 ^ 63) = 0 := by omega
  have hm : (2 * n) % (2 ^ 64) = 2 * n := by omega
  rw [hd, hm]
  simp

theorem zigzag_neg (n : Int) (h0 : -(2 ^ 63) ≤ n) (h1 : n < 0) :
    zigzag n = (-(2 * n) - 1).toNat := by
  unfold zigzag
  have hd : n / (2 ^ 63) = -1 := by omega
  have hm : (2 * n) % (2 ^ 64) = 2 * n + 2 ^ 64 := by omega
  have hm2 : ((-1 : Int)) % (2 ^ 64) = 2 ^ 64 - 1 := by decide
  rw [hd, hm, hm2]
  have ha : ((2 * n + 2 ^ 64 : Int)).toNat < 2 ^ 64 := by omega
  have hb : ((2 ^ 64 - 1 : Int)).toNat = 2 ^ 64 - 1 := by omega
  rw [hb]
  rw [xor_two_pow_sub_one 64 _ ha]
  omega

theorem zigzag_lt (n : Int) (h0 : -(2 ^ 63) ≤ n) (h1 : n < 2 ^ 63) :
    zigzag n < 2 ^ 64 := by
  rcases le_or_lt 0 n with h | h
  · rw [zigzag_nonneg n h h1]
    omega
  · rw [zigzag_neg n h0 h]
    omega

theorem unzigzag_zigzag (n : Int) (h0 : -(2 ^ 63) ≤ n) (h1 : n < 2 ^ 63) :
    unzigzag (zigzag n) = n := by
  rcases le_or_lt 0 n with h | h
  · rw [zigzag_nonneg n h h1]
    unfold unzigzag
    have he : (2 * n).toNat % 2 = 0 := by omega
    rw [if_pos he]
    omega
  · rw [zigzag_neg n h0 h]
    unfold unzigzag
    have he : (-(2 * n) - 1).toNat % 2 = 1 := by omega
    rw [if_neg (by omega)]
    omega

theorem varintEncodeAux_stable (fuel : Nat) :
    ∀ n fuel' : Nat, n < fuel → n < fuel' →
      varintEncodeAux fuel n = varintEncodeAux fuel' n := by
  induction fuel with
  | zero => intro n fuel' h; omega
  | succ fuel ih =>
    intro n fuel' h h'
    match fuel', h' with
    | fuel2 + 1, h' =>
      by_cases h128 : n < 128
      · simp [varintEncodeAux, h128]
      · simp only [varintEncodeAux, if_neg h128]
        congr 1
        have hq : n / 128 < n := Nat.div_lt_self (by omega) (by omega)
        exact ih (n / 128) fuel2 (by omega) (by omega)

theorem varintEncode_unfold (n : Nat) :
    varintEncode n = if n < 128 then [n] else (n % 128 + 128) :: varintEncode (n / 128) := by
  unfold varintEncode
  by_cases h128 : n < 128
  · simp [varintEncodeAux, h128]
  · simp only [varintEncodeAux, if_neg h128]
    congr 1
    have hq : n / 128 < n := Nat.div_lt_self (by omega) (by omega)
    exact varintEncodeAux_stable n (n / 128) (n / 128 + 1) (by omega) (by omega)

theorem varint_roundtrip : ∀ k n rest, 1 ≤ k → n < 2 ^ (7 * k) →
    varintDecodeAux k (varintEncode n ++ rest) = .ok (n, rest) := by
  intro k
  induction k with
  | zero => intro n rest h; omega
  | succ k ih =>
    intro n rest _ hn
    rw [varintEncode_unfold]
    by_cases h128 : n < 128
    · simp [varintDecodeAux, h128]
    · rw [if_neg h128]
      have hk : 1 ≤ k := by
        by_contra hk0
        have : k = 0 := by omega
        subst this
        simp at hn
        omega
      have hq : n / 128 < 2 ^ (7 * k) := by
        have h7 : 2 ^ (7 * (k + 1)) = 2 ^ (7 * k) * 128 := by
          rw [show 7 * (k + 1) = 7 * k + 7 by ring, pow_add]
          norm_num

        omega
      have hrec := ih (n / 128) rest hk hq
      simp only [List.cons_append, varintDecodeAux]
      rw [if_neg (by omega)]
      rw [show (varintEncode (n / 128)).append rest = varintEncode (n / 128) ++ rest from rfl]
      rw [hrec]
      have heq : n / 128 * 128 + (n % 128 + 128 - 128) = n := by omega
      simp only [heq]

theorem varintEncode_length : ∀ k n, n < 2 ^ (7 * k) → (varintEncode n).length ≤ max k 1 := by
  intro k
  induction k with
  | zero =>
    intro n h
    simp at h
    subst h
    simp [varintEncode, varintEncodeAux]
  | succ k ih =>
    intro n hn
    rw [varintEncode_unfold]
    by_cases h128 : n < 128
    · rw [if_pos h128]
      simp only [List.length_cons, List.length_nil]
      omega
    · rw [if_neg h128]
      have hq : n / 128 < 2 ^ (7 * k) := by
        have h7 : 2 ^ (7 * (k + 1)) = 2 ^ (7 * k) * 128 := by
          rw [show 7 * (k + 1) = 7 * k + 7 by ring, pow_add]
          norm_num
        omega
      have hk : 1 ≤ k := by
        by_contra hk0
        have : k = 0 := by omega
        subst this
        simp at hq
        omega
      have := ih (n / 128) hq
      simp only [List.length_cons]
      omega

theorem varintEncode_ne_nil (n : Nat) : varintEncode n ≠ [] := by
  rw [varintEncode_unfold]
  split <;> simp

theorem varintEncode_bytes (n : Nat) :
    (∀ b ∈ (varintEncode n).dropLast, 128 ≤ b ∧ b < 256) ∧
    (∀ b, (varintEncode n).getLast? = some b → b < 128) := by
  induction n using Nat.strong_induction_on with
  | _ n ih =>
    rw [varintEncode_unfold]
    by_cases h128 : n < 128
    · rw [if_pos h128]
      constructor
      · intro b hb
        simp at hb
      · intro b hb
        simp at hb
        omega
    · rw [if_neg h128]
      have hlt : n / 128 < n := Nat.div_lt_self (by omega) (by omega)
      have hne := varintEncode_ne_nil (n / 128)
      have hih := ih (n / 128) hlt
      constructor
      · intro b hb
        rw [List.dropLast_cons_of_ne_nil hne] at hb
        rcases List.mem_cons.mp hb with h | h
        · subst h
          omega
        · exact hih.1 b h
      · intro b hb
        match hvn : varintEncode (n / 128), hne with
        | t :: ts, _ =>
          rw [hvn] at hb
          rw [List.getLast?_cons_cons] at hb
          apply hih.2
          rw [hvn]
          exact hb

theorem zz_roundtrip (n : Int) (h0 : -(2 ^ 63) ≤ n) (h1 : n < 2 ^ 63) (rest : List Nat) :
    decode_varint_zigzag (encode_varint_zigzag n ++ rest) = .ok (n, rest) := by
  have hz : zigzag n < 2 ^ (7 * 10) := by
    have := zigzag_lt n h0 h1
    have hle : (2 : Nat) ^ 64 ≤ 2 ^ (7 * 10) := Nat.pow_le_pow_right (by omega) (by omega)
    omega
  unfold decode_varint_zigzag encode_varint_zigzag
  rw [varint_roundtrip 10 (zigzag n) rest (by omega) hz]
  simp only [unzigzag_zigzag n h0 h1]

theorem zz_length (n : Int) (h0 : -(2 ^ 63) ≤ n) (h1 : n < 2 ^ 63) :
    (encode_varint_zigzag n).length ≤ 10 := by
  have hz : zigzag n < 2 ^ (7 * 10) := by
    have := zigzag_lt n h0 h1
    have hle : (2 : Nat) ^ 64 ≤ 2 ^ (7 * 10) := Nat.pow_le_pow_right (by omega) (by omega)
    omega
  have := varintEncode_length 10 (zigzag n) hz
  unfold encode_varint_zigzag
  omega

/-- Claim C3: for every 64-bit signed integer n,
decode_varint_zigzag (encode_varint_zigzag n) recovers n (with any trailing
bytes untouched), the encoding is at most 10 bytes long, it is the base-128
varint of the zigzag value `(n <<< 1) ^^^ (n >>> 63)` (the definition of
`zigzag`, with the arithmetic right shift written as floor division by 2^63),
low 7 bits first, and the continuation bit is set on every byte except the
final one. -/
theorem claim_C3_varint_roundtrip (n : Int) (h0 : -(2 ^ 63) ≤ n) (h1 : n < 2 ^ 63)
    (rest : List Nat) :
    decode_varint_zigzag (encode_varint_zigzag n ++ rest) = .ok (n, rest) ∧
    (encode_varint_zigzag n).length ≤ 10 ∧
    encode_varint_zigzag n = varintEncode (zigzag n) ∧
    (∀ b ∈ (encode_varint_zigzag n).dropLast, 128 ≤ b ∧ b < 256) ∧
    (∀ b, (encode_varint_zigzag n).getLast? = some b → b < 128) := by
  exact ⟨zz_roundtrip n h0 h1 rest, zz_length n h0 h1, rfl,
    (varintEncode_bytes (zigzag n)).1, (varintEncode_bytes (zigzag n)).2⟩

/-- Witness for claim C3 at n = -3 with trailing byte 9. -/
theorem claim_C3_varint_roundtrip_witness :
    decode_varint_zigzag (encode_varint_zigzag (-3) ++ [9]) = .ok (-3, [9]) ∧
    (encode_varint_zigzag (-3)).length ≤ 10 ∧
    encode_varint_zigzag (-3) = varintEncode (zigzag (-3)) ∧
    (∀ b ∈ (encode_varint_zigzag (-3)).dropLast, 128 ≤ b ∧ b < 256) ∧
    (∀ b, (encode_varint_zigzag (-3)).getLast? = some b → b < 128) :=
  claim_C3_varint_roundtrip (-3) (by decide) (by decide) [9]

/-- Modelled from the spec: UTF-8 encoding of a single unicode scalar value. -/
def utf8EncodeChar (c : Char) : List Nat :=
  if c.toNat < 128 then [c.toNat]
  else if c.toNat < 2048 then [192 + c.toNat / 64, 128 + c.toNat % 64]
  else if c.toNat < 65536 then
    [224 + c.toNat / 4096, 128 + c.toNat / 64 % 64, 128 + c.toNat % 64]
  else
    [240 + c.toNat / 262144, 128 + c.toNat / 4096 % 64, 128 + c.toNat / 64 % 64,
      128 + c.toNat % 64]

/-- Modelled from the spec: UTF-8 encoding of a character sequence. -/
def utf8Encode : List Char → List Nat
  | [] => []
  | c :: cs => utf8EncodeChar c ++ utf8Encode cs

/-- Turn a validated code point into a character, rejecting surrogates and
out-of-range values with InvalidUtf8. -/
def charFromNat (n : Nat) (rest : List Nat) : Except AvroError (Char × List Nat) :=
  if n.isValidChar then .ok (Char.ofNat n, rest) else .error .InvalidUtf8

/-- Continuation-byte test for UTF-8 decoding. -/
def isCont (b : Nat) : Bool :=
  decide (128 ≤ b) && decide (b < 192)

/-- Modelled from the spec: decode one UTF-8 character from the byte stream,
failing with InvalidUtf8 on malformed, overlong or out-of-range sequences and
with TruncatedInput when the stream ends mid-character. -/
def utf8DecodeChar : List Nat → Except AvroError (Char × List Nat)
  | [] => .error .TruncatedInput
  | b0 :: r0 =>
    if b0 < 128 then charFromNat b0 r0
    else if b0 < 192 then .error .InvalidUtf8
    else if b0 < 224 then
      match r0 with
      | b1 :: r1 =>
        if isCont b1 then
          let n := (b0 - 192) * 64 + (b1 - 128)
          if n < 128 then .error .InvalidUtf8 else charFromNat n r1
        else .error .InvalidUtf8
      | [] => .error .TruncatedInput
    else if b0 < 240 then
      match r0 with
      | b1 :: b2 :: r2 =>
        if isCont b1 && isCont b2 then
          let n := (b0 - 224) * 4096 + (b1 - 128) * 64 + (b2 - 128)
          if n < 2048 then .error .InvalidUtf8 else charFromNat n r2
        else .error .InvalidUtf8
      | _ => .error .TruncatedInput
    else if b0 < 248 then
      match r0 with
      | b1 :: b2 :: b3 :: r3 =>
        if isCont b1 && isCont b2 && isCont b3 then
          let n := (b0 - 240) * 262144 + (b1 - 128) * 4096 + (b2 - 128) * 64 + (b3 - 128)
          if n < 65536 then .error .InvalidUtf8 else charFromNat n r3
        else .error .InvalidUtf8
      | _ => .error .TruncatedInput
    else .error .InvalidUtf8

/-- Modelled from the spec: decode a whole byte sequence as UTF-8 text,
fuel-indexed for structural recursion. -/
def utf8DecodeAux : Nat → List Nat → Except AvroError (List Char)
  | 0, _ => .error .InvalidUtf8
  | _ + 1, [] => .ok []
  | fuel + 1, b :: r =>
    match utf8DecodeChar (b :: r) with
    | .ok (c, rest) =>
      match utf8DecodeAux fuel rest with
      | .ok cs => .ok (c :: cs)
      | .error e => .error e
    | .error e => .error e

/-- Modelled from the spec: the bytes of a string are its UTF-8 encoding. -/
def stringToUtf8 (s : String) : List Nat :=
  utf8Encode s.data

/-- Modelled from the spec: string decoding requires the bytes to be valid
UTF-8, else InvalidUtf8. -/
def stringFromUtf8 (bs : List Nat) : Except AvroError String :=
  match utf8DecodeAux (bs.length + 1) bs with
  | .ok cs => .ok (String.mk cs)
  | .error e => .error e

theorem utf8EncodeChar_decode (c : Char) (rest : List Nat) :
    utf8DecodeChar (utf8EncodeChar c ++ rest) = .ok (c, rest) := by
  have hv : c.toNat.isValidChar := c.valid
  have hofn : Char.ofNat c.toNat = c := Char.ofNat_toNat c
  rcases hv with hlow | ⟨hs1, hs2⟩
  · by_cases h1 : c.toNat < 128
    · simp only [utf8EncodeChar, if_pos h1, List.cons_append, List.nil_append,
        utf8DecodeChar, charFromNat]
      rw [if_pos (show c.toNat.isValidChar from Or.inl hlow), hofn]
    · by_cases h2 : c.toNat < 2048
      · simp only [utf8EncodeChar, if_neg h1, if_pos h2, List.cons_append, List.nil_append,
          utf8DecodeChar, isCont, charFromNat]
        rw [if_neg (by omega), if_neg (by omega), if_pos (by omega)]
        have hc : (decide (128 ≤ 128 + c.toNat % 64) && decide (128 + c.toNat % 64 < 192)) = true := by
          simp only [Bool.and_eq_true, decide_eq_true_eq]
          omega
        rw [if_pos hc]
        have hn : (192 + c.toNat / 64 - 192) * 64 + (128 + c.toNat % 64 - 128) = c.toNat := by
          omega
        rw [hn, if_neg (by omega), if_pos (show c.toNat.isValidChar from Or.inl hlow), hofn]
      · simp only [utf8EncodeChar, if_neg h1, if_neg h2, if_pos (by omega : c.toNat < 65536),
          List.cons_append, List.nil_append, utf8DecodeChar, isCont, charFromNat]
        rw [if_neg (by omega), if_neg (by omega), if_neg (by omega), if_pos (by omega)]
        have hc : ((decide (128 ≤ 128 + c.toNat / 64 % 64) && decide (128 + c.toNat / 64 % 64 < 192)) &&
            (decide (128 ≤ 128 + c.toNat % 64) && decide (128 + c.toNat % 64 < 192))) = true := by
          simp only [Bool.and_eq_true, decide_eq_true_eq]
          omega
        rw [if_pos hc]
        have hn : (224 + c.toNat / 4096 - 224) * 4096 + (128 + c.toNat / 64 % 64 - 128) * 64 +
            (128 + c.toNat % 64 - 128) = c.toNat := by
          omega
        rw [hn, if_neg (by omega), if_pos (show c.toNat.isValidChar from Or.inl hlow), hofn]
  · have h1 : ¬ c.toNat < 128 := by omega
    have h2 : ¬ c.toNat < 2048 := by omega
    by_cases h3 : c.toNat < 65536
    · simp only [utf8EncodeChar, if_neg h1, if_neg h2, if_pos h3,
        List.cons_append, List.nil_append, utf8DecodeChar, isCont, charFromNat]
      rw [if_neg (by omega), if_neg (by omega), if_neg (by omega), if_pos (by omega)]
      have hc : ((decide (128 ≤ 128 + c.toNat / 64 % 64) && decide (128 + c.toNat / 64 % 64 < 192)) &&
          (decide (128 ≤ 128 + c.toNat % 64) && decide (128 + c.toNat % 64 < 192))) = true := by
        simp only [Bool.and_eq_true, decide_eq_true_eq]
        omega
      rw [if_pos hc]
      have hn : (224 + c.toNat / 4096 - 224) * 4096 + (128 + c.toNat / 64 % 64 - 128) * 64 +
          (128 + c.toNat % 64 - 128) = c.toNat := by
        omega
      rw [hn, if_neg (by omega), if_pos (show c.toNat.isValidChar from Or.inr (by omega)), hofn]
    · simp only [utf8EncodeChar, if_neg h1, if_neg h2, if_neg h3,
        List.cons_append, List.nil_append, utf8DecodeChar, isCont, charFromNat]
      rw [if_neg (by omega), if_neg (by omega), if_neg (by omega), if_neg (by omega),
        if_pos (by omega)]
      have hc : (((decide (128 ≤ 128 + c.toNat / 4096 % 64) && decide (128 + c.toNat / 4096 % 64 < 192)) &&
          (decide (128 ≤ 128 + c.toNat / 64 % 64) && decide (128 + c.toNat / 64 % 64 < 192))) &&
          (decide (128 ≤ 128 + c.toNat % 64) && decide (128 + c.toNat % 64 < 192))) = true := by
        simp only [Bool.and_eq_true, decide_eq_true_eq]
        omega
      rw [if_pos hc]
      have hn : (240 + c.toNat / 262144 - 240) * 262144 + (128 + c.toNat / 4096 % 64 - 128) * 4096 +
          (128 + c.toNat / 64 % 64 - 128) * 64 + (128 + c.toNat % 64 - 128) = c.toNat := by
        omega
      rw [hn, if_neg (by omega), if_pos (show c.toNat.isValidChar from Or.inr (by omega)), hofn]

theorem utf8EncodeChar_ne_nil (c : Char) : utf8EncodeChar c ≠ [] := by
  unfold utf8EncodeChar
  split
  · simp
  · split
    · simp
    · split <;> simp

theorem utf8EncodeChar_bytes (c : Char) : ∀ b ∈ utf8EncodeChar c, b < 256 := by
  have hv : c.toNat.isValidChar := c.valid
  have hub : c.toNat < 1114112 := by
    rcases hv with h | ⟨_, h⟩ <;> omega
  unfold utf8EncodeChar
  intro b hb
  split at hb
  · simp at hb
    omega
  · split at hb
    · simp at hb
      rcases hb with h | h <;> omega
    · split at hb
      · simp at hb
        rcases hb with h | h | h <;> omega
      · simp at hb
        rcases hb with h | h | h | h <;> omega

theorem utf8Encode_length (cs : List Char) : cs.length ≤ (utf8Encode cs).length := by
  induction cs with
  | nil => simp [utf8Encode]
  | cons c cs ih =>
    simp only [utf8Encode, List.length_append, List.length_cons]
    have := utf8EncodeChar_ne_nil c
    have : 1 ≤ (utf8EncodeChar c).length := by
      cases h : utf8EncodeChar c
      · exact absurd h this
      · simp
    omega

theorem utf8Encode_bytes (cs : List Char) : ∀ b ∈ utf8Encode cs, b < 256 := by
  induction cs with
  | nil => simp [utf8Encode]
  | cons c cs ih =>
    intro b hb
    simp only [utf8Encode, List.mem_append] at hb
    rcases hb with h | h
    · exact utf8EncodeChar_bytes c b h
    · exact ih b h

theorem utf8DecodeAux_roundtrip : ∀ fuel (cs : List Char), cs.length < fuel →
    utf8DecodeAux fuel (utf8Encode cs) = .ok cs := by
  intro fuel
  induction fuel with
  | zero => intro cs h; omega
  | succ fuel ih =>
    intro cs h
    match cs with
    | [] => simp [utf8Encode, utf8DecodeAux]
    | c :: cs =>
      have hch := utf8EncodeChar_decode c (utf8Encode cs)
      have hne := utf8EncodeChar_ne_nil c
      match hb : utf8EncodeChar c, hne with
      | b :: bs, _ =>
        rw [hb] at hch
        simp only [utf8Encode, hb, List.cons_append, utf8DecodeAux]
        rw [show (b :: (bs ++ utf8Encode cs)) = (b :: bs) ++ utf8Encode cs from rfl, hch]
        have hih := ih cs (by simp at h; omega)
        simp [hih]

theorem stringToUtf8_roundtrip (s : String) :
    stringFromUtf8 (stringToUtf8 s) = .ok s := by
  unfold stringFromUtf8 stringToUtf8
  rw [utf8DecodeAux_roundtrip ((utf8Encode s.data).length + 1) s.data
    (by have := utf8Encode_length s.data; omega)]

/-- Modelled from the spec: the Schema model of section 3, a closed sum type
with one case per kind; record field order is fixed at construction. -/
inductive Schema where
  | snull
  | sboolean
  | sint
  | slong
  | sfloat
  | sdouble
  | sbytes
  | sstring
  | record (name : String) (fields : List (String × Schema))
  | union (branches : List Schema)
  | array (items : Schema)
  | map (values : Schema)
  | enum (symbols : List String)
  | fixed (len : Nat)

/-- Modelled from the spec: the dynamically-typed Value tree of section 3.
Floats are carried as their IEEE-754 bit patterns, which the codec passes
through bit-for-bit; byte sequences are lists of byte values. -/
inductive Value where
  | vnull
  | vboolean (b : Bool)
  | vint (n : Int)
  | vlong (n : Int)
  | vfloat (bits : Nat)
  | vdouble (bits : Nat)
  | vbytes (bs : List Nat)
  | vstring (s : String)
  | vrecord (fields : List (String × Value))
  | varray (items : List Value)
  | vmap (entries : List (String × Value))

mutual

/-- Structural size of a schema, used as recursion fuel: every sub-schema
reached by one codec recursion step has strictly smaller size. -/
def schemaSize : Schema → Nat
  | .record _ flds => 1 + fieldsSize flds
  | .union bs => 1 + branchesSize bs
  | .array s => 1 + schemaSize s
  | .map s => 1 + schemaSize s
  | _ => 1

/-- Structural size of a record field list. -/
def fieldsSize : List (String × Schema) → Nat
  | [] => 1
  | (_, s) :: rest => 1 + schemaSize s + fieldsSize rest

/-- Structural size of a union branch list. -/
def branchesSize : List Schema → Nat
  | [] => 1
  | s :: rest => 1 + schemaSize s + branchesSize rest

end

/-- Name-directed field access into a record value: the codec reads a record
value only through this mapping view, never through positional access. -/
def lookupField (k : String) : List (String × Value) → Option Value
  | [] => none
  | (n, v) :: rest => if n = k then some v else lookupField k rest

/-- Duplicate-freedom check for record field names. -/
def listNodup : List String → Bool
  | [] => true
  | x :: xs => (!(xs.contains x)) && listNodup xs

/-- Modelled from the spec: shallow structural kind match between a schema
branch and a runtime value, used by union branch selection. -/
def kindMatches : Schema → Value → Bool
  | .snull, .vnull => true
  | .sboolean, .vboolean _ => true
  | .sint, .vint _ => true
  | .slong, .vlong _ => true
  | .sfloat, .vfloat _ => true
  | .sdouble, .vdouble _ => true
  | .sbytes, .vbytes _ => true
  | .sstring, .vstring _ => true
  | .record _ _, .vrecord _ => true
  | .array _, .varray _ => true
  | .map _, .vmap _ => true
  | .enum _, .vstring _ => true
  | .fixed _, .vbytes _ => true
  | _, _ => false

/-- Modelled from the spec: the first schema branch whose kind structurally
matches the runtime value, together with its index; declaration order wins. -/
def firstMatch (v : Value) : List Schema → Option (Nat × Schema)
  | [] => none
  | b :: bs =>
    if kindMatches b v then some (0, b)
    else
      match firstMatch v bs with
      | some (i, br) => some (i + 1, br)
      | none => none

/-- Index of a symbol in an enum symbol list. -/
def findIndex (x : String) : List String → Option Nat
  | [] => none
  | y :: ys =>
    if y == x then some 0
    else
      match findIndex x ys with
      | some i => some (i + 1)
      | none => none

/-- Pairwise conformance of record field values to record field schemas, in
declared order, through a supplied conformance function. -/
def matchFields (m : Schema → Value → Bool) :
    List (String × Schema) → List (String × Value) → Bool
  | [], [] => true
  | (n, fs) :: flds, (n2, fv) :: fvals => (n == n2) && m fs fv && matchFields m flds fvals
  | _, _ => false

/-- Modelled from the spec: conformance of a Value to a Schema ("supported
Schema/Value pair").  Record values must list their fields in the schema's
declared order with duplicate-free names (the canonical mapping
representation), integers must fit their 32/64-bit ranges, float bit patterns
their width, byte values must be bytes, and sequence lengths must fit the
64-bit wire counters.  Fuel-indexed for structural recursion. -/
def MatchesAux : Nat → Schema → Value → Bool
  | 0, _, _ => false
  | fuel + 1, s, v =>
    match s, v with
    | .snull, .vnull => true
    | .sboolean, .vboolean _ => true
    | .sint, .vint n => decide (-(2 ^ 31) ≤ n) && decide (n < 2 ^ 31)
    | .slong, .vlong n => decide (-(2 ^ 63) ≤ n) && decide (n < 2 ^ 63)
    | .sfloat, .vfloat bits => decide (bits < 2 ^ 32)
    | .sdouble, .vdouble bits => decide (bits < 2 ^ 64)
    | .sbytes, .vbytes bs => decide (bs.length < 2 ^ 63) && bs.all (fun b => decide (b < 256))
    | .sstring, .vstring str => decide ((stringToUtf8 str).length < 2 ^ 63)
    | .record _ flds, .vrecord fvals =>
        listNodup (flds.map Prod.fst) && matchFields (MatchesAux fuel) flds fvals
    | .union bs, v2 =>
        decide (bs.length < 2 ^ 63) &&
          match firstMatch v2 bs with
          | some (_, b) => MatchesAux fuel b v2
          | none => false
    | .array s2, .varray items =>
        decide (items.length < 2 ^ 63) && items.all (MatchesAux fuel s2)
    | .map s2, .vmap entries =>
        decide (entries.length < 2 ^ 63) &&
          entries.all (fun e => decide ((stringToUtf8 e.1).length < 2 ^ 63) && MatchesAux fuel s2 e.2)
    | .enum syms, .vstring sym => decide (syms.length < 2 ^ 63) && syms.contains sym
    | .fixed len, .vbytes bs => decide (bs.length = len) && bs.all (fun b => decide (b < 256))
    | _, _ => false

/-- Conformance of a Value to a Schema, with sufficient fuel supplied from the
schema size. -/
def Matches (s : Schema) (v : Value) : Bool :=
  MatchesAux (schemaSize s + 1) s v

/-- Modelled from the spec: length-prefixed string encoding; the prefix is the
varint zigzag byte length of the UTF-8 bytes. -/
def encodeString (s : String) : List Nat :=
  encode_varint_zigzag ((stringToUtf8 s).length : Int) ++ stringToUtf8 s

/-- Modelled from the spec: 4 fixed little-endian bytes of an IEEE-754 single
bit pattern. -/
def encodeFloatLE (bits : Nat) : List Nat :=
  [bits % 256, bits / 256 % 256, bits / 65536 % 256, bits / 16777216 % 256]

/-- Modelled from the spec: 8 fixed little-endian bytes of an IEEE-754 double
bit pattern. -/
def encodeDoubleLE (bits : Nat) : List Nat :=
  [bits % 256, bits / 2 ^ 8 % 256, bits / 2 ^ 16 % 256, bits / 2 ^ 24 % 256,
    bits / 2 ^ 32 % 256, bits / 2 ^ 40 % 256, bits / 2 ^ 48 % 256, bits / 2 ^ 56 % 256]

/-- Sequential encoding of array items through a supplied item encoder. -/
def encodeItems (enc : Value → Except AvroError (List Nat)) :
    List Value → Except AvroError (List Nat)
  | [] => .ok []
  | v :: vs =>
    match enc v with
    | .ok bs =>
      match encodeItems enc vs with
      | .ok more => .ok (bs ++ more)
      | .error e => .error e
    | .error e => .error e

/-- Sequential encoding of map entries (string key, then value) through a
supplied value encoder. -/
def encodeEntries (enc : Value → Except AvroError (List Nat)) :
    List (String × Value) → Except AvroError (List Nat)
  | [] => .ok []
  | (k, v) :: es =>
    match enc v with
    | .ok bs =>
      match encodeEntries enc es with
      | .ok more => .ok (encodeString k ++ bs ++ more)
      | .error e => .error e
    | .error e => .error e

/-- Modelled from the spec: record fields are encoded in the schema's fixed
declared order, each field value fetched from the value's name-to-value
mapping; a missing field is a SchemaValueMismatch. -/
def encodeFields (enc : Schema → Value → Except AvroError (List Nat)) :
    List (String × Schema) → List (String × Value) → Except AvroError (List Nat)
  | [], _ => .ok []
  | (n, fs) :: flds, fvals =>
    match lookupField n fvals with
    | some v =>
      match enc fs v with
      | .ok bs =>
        match encodeFields enc flds fvals with
        | .ok more => .ok (bs ++ more)
        | .error e => .error e
      | .error e => .error e
    | none => .error .SchemaValueMismatch

/-- Modelled from the spec: the schema-directed recursive value encoder of
section 4.2.  Fuel-indexed for structural recursion; the recursion depth is
bounded by the schema size, so the wrapper `encode` supplies `sizeOf s + 1`. -/
def encodeAux : Nat → Schema → Value → Except AvroError (List Nat)
  | 0, _, _ => .error .SchemaValueMismatch
  | fuel + 1, s, v =>
    match s, v with
    | .snull, .vnull => .ok []
    | .sboolean, .vboolean b => .ok [if b then 1 else 0]
    | .sint, .vint n =>
      if -(2 ^ 31) ≤ n ∧ n < 2 ^ 31 then .ok (encode_varint_zigzag n)
      else .error .SchemaValueMismatch
    | .slong, .vlong n =>
      if -(2 ^ 63) ≤ n ∧ n < 2 ^ 63 then .ok (encode_varint_zigzag n)
      else .error .SchemaValueMismatch
    | .sfloat, .vfloat bits =>
      if bits < 2 ^ 32 then .ok (encodeFloatLE bits) else .error .SchemaValueMismatch
    | .sdouble, .vdouble bits =>
      if bits < 2 ^ 64 then .ok (encodeDoubleLE bits) else .error .SchemaValueMismatch
    | .sbytes, .vbytes bs => .ok (encode_varint_zigzag (bs.length : Int) ++ bs)
    | .sstring, .vstring str => .ok (encodeString str)
    | .record _ flds, .vrecord fvals => encodeFields (encodeAux fuel) flds fvals
    | .union bs, v2 =>
      match firstMatch v2 bs with
      | some (i, b) =>
        match encodeAux fuel b v2 with
        | .ok bytes => .ok (encode_varint_zigzag (i : Int) ++ bytes)
        | .error e => .error e
      | none => .error .SchemaValueMismatch
    | .array s2, .varray items =>
      if items.isEmpty then .ok [0]
      else
        match encodeItems (encodeAux fuel s2) items with
        | .ok bytes => .ok (encode_varint_zigzag (items.length : Int) ++ bytes ++ [0])
        | .error e => .error e
    | .map s2, .vmap entries =>
      if entries.isEmpty then .ok [0]
      else
        match encodeEntries (encodeAux fuel s2) entries with
        | .ok bytes => .ok (encode_varint_zigzag (entries.length : Int) ++ bytes ++ [0])
        | .error e => .error e
    | .enum syms, .vstring sym =>
      match findIndex sym syms with
      | some i => .ok (encode_varint_zigzag (i : Int))
      | none => .error .SchemaValueMismatch
    | .fixed len, .vbytes bs =>
      if bs.length = len then .ok bs else .error .SchemaValueMismatch
    | _, _ => .error .SchemaValueMismatch

/-- Modelled from the spec: `encode(schema, value)`, a pure projection of a
conforming value to bytes. -/
def encode (s : Schema) (v : Value) : Except AvroError (List Nat) :=
  encodeAux (schemaSize s + 1) s v

/-- Modelled from the spec: boolean decoding, 0 is false, 1 is true, any other
byte is InvalidBoolean. -/
def decodeBool : List Nat → Except AvroError (Value × List Nat)
  | [] => .error .TruncatedInput
  | b :: r =>
    if b = 0 then .ok (.vboolean false, r)
    else if b = 1 then .ok (.vboolean true, r)
    else .error .InvalidBoolean

/-- Modelled from the spec: read a varint zigzag length, which must be
nonnegative, else NegativeLength. -/
def readLen (input : List Nat) : Except AvroError (Nat × List Nat) :=
  match decode_varint_zigzag input with
  | .ok (n, r) => if n < 0 then .error .NegativeLength else .ok (n.toNat, r)
  | .error e => .error e

/-- Read exactly L raw bytes from the stream, else TruncatedInput. -/
def takeBytes (L : Nat) (input : List Nat) : Except AvroError (List Nat × List Nat) :=
  if input.length < L then .error .TruncatedInput else .ok (input.take L, input.drop L)

/-- Modelled from the spec: length-prefixed string decoding; the bytes must be
valid UTF-8, else InvalidUtf8. -/
def decodeStringRaw (input : List Nat) : Except AvroError (String × List Nat) :=
  match readLen input with
  | .ok (L, r) =>
    match takeBytes L r with
    | .ok (bs, r2) =>
      match stringFromUtf8 bs with
      | .ok str => .ok (str, r2)
      | .error e => .error e
    | .error e => .error e
  | .error e => .error e

/-- Modelled from the spec: 4 little-endian bytes reassembled into a single
bit pattern. -/
def decodeFloatLE : List Nat → Except AvroError (Value × List Nat)
  | b0 :: b1 :: b2 :: b3 :: r =>
    .ok (.vfloat (b0 + 256 * b1 + 65536 * b2 + 16777216 * b3), r)
  | _ => .error .TruncatedInput

/-- Modelled from the spec: 8 little-endian bytes reassembled into a double
bit pattern. -/
def decodeDoubleLE : List Nat → Except AvroError (Value × List Nat)
  | b0 :: b1 :: b2 :: b3 :: b4 :: b5 :: b6 :: b7 :: r =>
    .ok (.vdouble (b0 + 2 ^ 8 * b1 + 2 ^ 16 * b2 + 2 ^ 24 * b3 + 2 ^ 32 * b4 + 2 ^ 40 * b5 +
      2 ^ 48 * b6 + 2 ^ 56 * b7), r)
  | _ => .error .TruncatedInput

/-- Decode a fixed number of consecutive items through a supplied item
decoder. -/
def decodeItemsGen {α : Type} (item : List Nat → Except AvroError (α × List Nat)) :
    Nat → List Nat → Except AvroError (List α × List Nat)
  | 0, input => .ok ([], input)
  | c + 1, input =>
    match item input with
    | .ok (v, r) =>
      match decodeItemsGen item c r with
      | .ok (vs, r2) => .ok (v :: vs, r2)
      | .error e => .error e
    | .error e => .error e

/-- Modelled from the spec: the block loop of arrays and maps; a reader loops
consuming count-prefixed blocks until a zero count; a negative count is
followed by a byte length (skip support) and then the absolute count of
items.  Fuel-indexed for structural recursion; each iteration consumes at
least the count byte, so stream length bounds the iterations. -/
def decodeBlocksGen {α : Type} (item : List Nat → Except AvroError (α × List Nat)) :
    Nat → List Nat → Except AvroError (List α × List Nat)
  | 0, _ => .error .TruncatedInput
  | bfuel + 1, input =>
    match decode_varint_zigzag input with
    | .ok (c, r) =>
      if c = 0 then .ok ([], r)
      else if 0 < c then
        match decodeItemsGen item c.toNat r with
        | .ok (vs, r2) =>
          match decodeBlocksGen item bfuel r2 with
          | .ok (more, r3) => .ok (vs ++ more, r3)
          | .error e => .error e
        | .error e => .error e
      else
        match readLen r with
        | .ok (_, r1) =>
          match decodeItemsGen item (-c).toNat r1 with
          | .ok (vs, r2) =>
            match decodeBlocksGen item bfuel r2 with
            | .ok (more, r3) => .ok (vs ++ more, r3)
            | .error e => .error e
          | .error e => .error e
        | .error e => .error e
    | .error e => .error e

/-- Decode one map entry: a string key followed by a value. -/
def decodeEntry (dec : List Nat → Except AvroError (Value × List Nat)) (input : List Nat) :
    Except AvroError ((String × Value) × List Nat) :=
  match decodeStringRaw input with
  | .ok (k, r) =>
    match dec r with
    | .ok (v, r2) => .ok ((k, v), r2)
    | .error e => .error e
  | .error e => .error e

/-- Modelled from the spec: record fields are decoded in the schema's declared
order through a supplied field decoder. -/
def decodeFields (dec : Schema → List Nat → Except AvroError (Value × List Nat)) :
    List (String × Schema) → List Nat → Except AvroError (List (String × Value) × List Nat)
  | [], input => .ok ([], input)
  | (n, fs) :: flds, input =>
    match dec fs input with
    | .ok (v, r) =>
      match decodeFields dec flds r with
      | .ok (fvs, r2) => .ok ((n, v) :: fvs, r2)
      | .error e => .error e
    | .error e => .error e

/-- Modelled from the spec: the schema-directed recursive value decoder of
section 4.2, dispatching on schema kind; a union index outside the branch
range is InvalidUnionIndex, an enum index outside the symbol range is
InvalidEnumIndex.  Fuel-indexed for structural recursion; the recursion depth
is bounded by the schema size. -/
def decodeAux : Nat → Schema → List Nat → Except AvroError (Value × List Nat)
  | 0, _, _ => .error .TruncatedInput
  | fuel + 1, s, input =>
    match s with
    | .snull => .ok (.vnull, input)
    | .sboolean => decodeBool input
    | .sint =>
      match decode_varint_zigzag input with
      | .ok (n, r) => .ok (.vint n, r)
      | .error e => .error e
    | .slong =>
      match decode_varint_zigzag input with
      | .ok (n, r) => .ok (.vlong n, r)
      | .error e => .error e
    | .sfloat => decodeFloatLE input
    | .sdouble => decodeDoubleLE input
    | .sbytes =>
      match readLen input with
      | .ok (L, r) =>
        match takeBytes L r with
        | .ok (bs, r2) => .ok (.vbytes bs, r2)
        | .error e => .error e
      | .error e => .error e
    | .sstring =>
      match decodeStringRaw input with
      | .ok (str, r) => .ok (.vstring str, r)
      | .error e => .error e
    | .record _ flds =>
      match decodeFields (decodeAux fuel) flds input with
      | .ok (fvs, r) => .ok (.vrecord fvs, r)
      | .error e => .error e
    | .union bs =>
      match decode_varint_zigzag input with
      | .ok (i, r) =>
        if i < 0 then .error .InvalidUnionIndex
        else
          match bs[i.toNat]? with
          | some b => decodeAux fuel b r
          | none => .error .InvalidUnionIndex
      | .error e => .error e
    | .array s2 =>
      match decodeBlocksGen (decodeAux fuel s2) (input.length + 1) input with
      | .ok (vs, r) => .ok (.varray vs, r)
      | .error e => .error e
    | .map s2 =>
      match decodeBlocksGen (decodeEntry (decodeAux fuel s2)) (input.length + 1) input with
      | .ok (es, r) => .ok (.vmap es, r)
      | .error e => .error e
    | .enum syms =>
      match decode_varint_zigzag input with
      | .ok (i, r) =>
        if i < 0 then .error .InvalidEnumIndex
        else
          match syms[i.toNat]? with
          | some sym => .ok (.vstring sym, r)
          | none => .error .InvalidEnumIndex
      | .error e => .error e
    | .fixed len =>
      match takeBytes len input with
      | .ok (bs, r) => .ok (.vbytes bs, r)
      | .error e => .error e

/-- Modelled from the spec: `decode(schema, bytes)`, a pure projection from
bytes to a freshly built conforming value. -/
def decode (s : Schema) (input : List Nat) : Except AvroError (Value × List Nat) :=
  decodeAux (schemaSize s + 1) s input

theorem schemaSize_pos (s : Schema) : 1 ≤ schemaSize s := by
  cases s <;> simp [schemaSize]

theorem fieldsSize_mem : ∀ (flds : List (String × Schema)) (n : String) (fs : Schema),
    (n, fs) ∈ flds → schemaSize fs < fieldsSize flds := by
  intro flds
  induction flds with
  | nil => intro n fs h; simp at h
  | cons p rest ih =>
    intro n fs h
    rcases List.mem_cons.mp h with h | h
    · subst h
      simp [fieldsSize]
      omega
    · have := ih n fs h
      match p with
      | (n2, s2) =>
        simp [fieldsSize]
        omega

theorem branchesSize_mem : ∀ (bs : List Schema) (b : Schema),
    b ∈ bs → schemaSize b < branchesSize bs := by
  intro bs
  induction bs with
  | nil => intro b h; simp at h
  | cons b2 rest ih =>
    intro b h
    rcases List.mem_cons.mp h with h | h
    · subst h
      simp [branchesSize]
      omega
    · have := ih b h
      simp [branchesSize]
      omega

theorem firstMatch_spec : ∀ (bs : List Schema) (v : Value) (i : Nat) (b : Schema),
    firstMatch v bs = some (i, b) →
    b ∈ bs ∧ i < bs.length ∧ bs[i]? = some b ∧ kindMatches b v = true ∧
      ∀ j (hj : j < i) (hj2 : j < bs.length), kindMatches (bs.get ⟨j, hj2⟩) v = false := by
  intro bs
  induction bs with
  | nil => intro v i b h; simp [firstMatch] at h
  | cons b0 rest ih =>
    intro v i b h
    simp only [firstMatch] at h
    by_cases hk : kindMatches b0 v
    · rw [if_pos hk] at h
      injection h with h
      injection h with h1 h2
      subst h1
      subst h2
      refine ⟨List.mem_cons_self b0 rest, by simp, by simp, hk, ?_⟩
      intro j hj hj2
      omega
    · rw [if_neg hk] at h
      match hfm : firstMatch v rest with
      | some (i2, b2) =>
        rw [hfm] at h
        injection h with h
        injection h with h1 h2
        have hib := ih v i2 b2 hfm
        subst h2
        refine ⟨List.mem_cons_of_mem b0 hib.1, by simp; omega, ?_, hib.2.2.2.1, ?_⟩
        · rw [show i = i2 + 1 from h1.symm]
          simpa using hib.2.2.1
        · intro j hj hj2
          match j with
          | 0 =>
            simp
            exact eq_false_of_ne_true hk
          | j2 + 1 =>
            simp only [List.get_cons_succ]
            have hi : i = i2 + 1 := h1.symm
            exact hib.2.2.2.2 j2 (by omega) (by simp at hj2; omega)
      | none =>
        rw [hfm] at h
        simp at h

theorem firstMatch_sizeOf (bs : List Schema) (v : Value) (i : Nat) (b : Schema)
    (h : firstMatch v bs = some (i, b)) : schemaSize b < branchesSize bs :=
  branchesSize_mem bs b (firstMatch_spec bs v i b h).1

theorem findIndex_spec : ∀ (syms : List String) (sym : String),
    syms.contains sym = true →
    ∃ i, findIndex sym syms = some i ∧ i < syms.length ∧ syms[i]? = some sym := by
  intro syms
  induction syms with
  | nil => intro sym h; simp at h
  | cons y ys ih =>
    intro sym h
    by_cases hy : y == sym
    · refine ⟨0, ?_, by simp, ?_⟩
      · simp [findIndex, hy]
      · simp
        exact (eq_of_beq hy).symm ▸ rfl
    · have hmem : ys.contains sym = true := by
        simp only [List.contains_cons] at h
        rcases Bool.or_eq_true_iff.mp h with h | h
        · exfalso
          have := eq_of_beq h
          subst this
          simp at hy
        · exact h
      rcases ih sym hmem with ⟨i, hfi, hlt, hget⟩
      refine ⟨i + 1, ?_, by simp; omega, by simpa using hget⟩
      simp [findIndex, hy, hfi]

theorem readLen_enc (L : Nat) (h : (L : Int) < 2 ^ 63) (rest : List Nat) :
    readLen (encode_varint_zigzag (L : Int) ++ rest) = .ok (L, rest) := by
  unfold readLen
  rw [zz_roundtrip (L : Int) (by omega) h rest]
  have hnn : ¬ ((L : Int) < 0) := by omega
  simp [hnn]

theorem takeBytes_append (bs rest : List Nat) :
    takeBytes bs.length (bs ++ rest) = .ok (bs, rest) := by
  unfold takeBytes
  rw [if_neg (by simp)]
  rw [List.take_left, List.drop_left]

theorem string_roundtrip (str : String) (h : (stringToUtf8 str).length < 2 ^ 63)
    (rest : List Nat) :
    decodeStringRaw (encodeString str ++ rest) = .ok (str, rest) := by
  unfold decodeStringRaw encodeString
  rw [List.append_assoc]
  simp only [readLen_enc (stringToUtf8 str).length (by omega) (stringToUtf8 str ++ rest),
    takeBytes_append, stringToUtf8_roundtrip]

theorem items_roundtrip {enc : Value → Except AvroError (List Nat)}
    {dec : Nat → List Nat → Except AvroError (Value × List Nat)} {F : Nat → Prop} :
    ∀ (items : List Value),
    (∀ v ∈ items, ∃ bs, enc v = .ok bs ∧
      ∀ f2 rest, F f2 → dec f2 (bs ++ rest) = .ok (v, rest)) →
    ∃ bsI, encodeItems enc items = .ok bsI ∧
      ∀ f2 rest, F f2 → decodeItemsGen (dec f2) items.length (bsI ++ rest) = .ok (items, rest) := by
  intro items
  induction items with
  | nil => exact fun _ => ⟨[], rfl, fun f2 rest hf => rfl⟩
  | cons v vs ih =>
    intro h
    rcases h v (by simp) with ⟨bs1, he1, hd1⟩
    rcases ih (fun w hw => h w (by simp [hw])) with ⟨bs2, he2, hd2⟩
    refine ⟨bs1 ++ bs2, ?_, ?_⟩
    · simp [encodeItems, he1, he2]
    · intro f2 rest hf
      simp only [List.length_cons, decodeItemsGen, List.append_assoc]
      rw [hd1 f2 (bs2 ++ rest) hf]
      simp [hd2 f2 rest hf]

theorem entries_roundtrip {enc : Value → Except AvroError (List Nat)}
    {dec : Nat → List Nat → Except AvroError (Value × List Nat)} {F : Nat → Prop} :
    ∀ (entries : List (String × Value)),
    (∀ e ∈ entries, (stringToUtf8 e.1).length < 2 ^ 63 ∧
      ∃ bs, enc e.2 = .ok bs ∧ ∀ f2 rest, F f2 → dec f2 (bs ++ rest) = .ok (e.2, rest)) →
    ∃ bsE, encodeEntries enc entries = .ok bsE ∧
      ∀ f2 rest, F f2 →
        decodeItemsGen (decodeEntry (dec f2)) entries.length (bsE ++ rest) = .ok (entries, rest) := by
  intro entries
  induction entries with
  | nil => exact fun _ => ⟨[], rfl, fun f2 rest hf => rfl⟩
  | cons e es ih =>
    intro h
    rcases h e (by simp) with ⟨hkey, bs1, he1, hd1⟩
    rcases ih (fun w hw => h w (by simp [hw])) with ⟨bs2, he2, hd2⟩
    obtain ⟨k, v⟩ := e
    refine ⟨encodeString k ++ bs1 ++ bs2, ?_, ?_⟩
    · simp [encodeEntries, he1, he2]
    · intro f2 rest hf
      have hentry : decodeEntry (dec f2) (encodeString k ++ (bs1 ++ (bs2 ++ rest)))
          = .ok ((k, v), bs2 ++ rest) := by
        unfold decodeEntry
        rw [string_roundtrip k hkey (bs1 ++ (bs2 ++ rest))]
        simp [hd1 f2 (bs2 ++ rest) hf]
      simp only [List.length_cons, decodeItemsGen, List.append_assoc]
      rw [hentry]
      simp [hd2 f2 rest hf]

theorem lookupField_skip (k k2 : String) (hne : ¬ k2 = k) (fv : Value)
    (fvals : List (String × Value)) :
    lookupField k ((k2, fv) :: fvals) = lookupField k fvals := by
  simp [lookupField, hne]

theorem encodeFields_skip {enc : Schema → Value → Except AvroError (List Nat)} :
    ∀ (flds : List (String × Schema)) (n0 : String), n0 ∉ flds.map Prod.fst →
    ∀ (fv0 : Value) (fvals : List (String × Value)),
    encodeFields enc flds ((n0, fv0) :: fvals) = encodeFields enc flds fvals := by
  intro flds
  induction flds with
  | nil => intro n0 h fv0 fvals; rfl
  | cons p rest ih =>
    intro n0 h fv0 fvals
    obtain ⟨n, fs⟩ := p
    simp only [List.map_cons, List.mem_cons] at h
    push_neg at h
    simp only [encodeFields]
    rw [lookupField_skip n n0 h.1 fv0 fvals]
    simp only [ih n0 h.2 fv0 fvals]

theorem matchFields_forall (M : Schema → Value → Bool) (P : Schema → Value → Prop) :
    ∀ (flds : List (String × Schema)) (fvals : List (String × Value)),
    matchFields M flds fvals = true →
    (∀ p v, p ∈ flds → M (Prod.snd p) v = true → P (Prod.snd p) v) →
    List.Forall₂ (fun (f : String × Schema) (g : String × Value) =>
      f.1 = g.1 ∧ P f.2 g.2) flds fvals := by
  intro flds
  induction flds with
  | nil =>
    intro fvals hm _
    match fvals with
    | [] => exact List.Forall₂.nil
    | g :: gs => simp [matchFields] at hm
  | cons f rest ih =>
    intro fvals hm himp
    obtain ⟨n, fs⟩ := f
    match fvals with
    | [] => simp [matchFields] at hm
    | g :: gs =>
      obtain ⟨n2, fv⟩ := g
      simp only [matchFields, Bool.and_eq_true] at hm
      refine List.Forall₂.cons ⟨eq_of_beq hm.1.1, ?_⟩ ?_
      · exact himp (n, fs) fv (by simp) hm.1.2
      · exact ih gs hm.2 (fun p v hp hMv => himp p v (by simp [hp]) hMv)

theorem fields_roundtrip {enc : Schema → Value → Except AvroError (List Nat)}
    {dec : Nat → Schema → List Nat → Except AvroError (Value × List Nat)} {F : Nat → Prop} :
    ∀ (flds : List (String × Schema)) (fvals : List (String × Value)),
    List.Forall₂ (fun (f : String × Schema) (g : String × Value) => f.1 = g.1 ∧
      ∃ bs, enc f.2 g.2 = .ok bs ∧
        ∀ f2 rest, F f2 → dec f2 f.2 (bs ++ rest) = .ok (g.2, rest)) flds fvals →
    listNodup (flds.map Prod.fst) = true →
    ∃ bsF, encodeFields enc flds fvals = .ok bsF ∧
      ∀ f2 rest, F f2 → decodeFields (dec f2) flds (bsF ++ rest) = .ok (fvals, rest) := by
  intro flds
  induction flds with
  | nil =>
    intro fvals hfor _
    cases hfor
    exact ⟨[], rfl, fun f2 rest hf => rfl⟩
  | cons f flds ih =>
    intro fvals hfor hnd
    cases hfor with
    | cons hfg hrest =>
      rename_i g gs
      obtain ⟨n, fs⟩ := f
      obtain ⟨n2, fv⟩ := g
      obtain ⟨hname, bs1, he1, hd1⟩ := hfg
      simp only at hname
      subst hname
      simp only [List.map_cons, listNodup, Bool.and_eq_true, Bool.not_eq_true'] at hnd
      have hnotin : n ∉ flds.map Prod.fst := by
        have hcf := hnd.1
        simpa using hcf
      rcases ih gs hrest hnd.2 with ⟨bs2, he2, hd2⟩
      refine ⟨bs1 ++ bs2, ?_, ?_⟩
      · simp only [encodeFields, lookupField, if_pos rfl]
        rw [encodeFields_skip flds n hnotin fv gs]
        simp [he1, he2]
      · intro f2 rest hf
        simp only [decodeFields, List.append_assoc]
        rw [hd1 f2 (bs2 ++ rest) hf]
        simp [hd2 f2 rest hf]

theorem blocks_empty {α : Type} (item : List Nat → Except AvroError (α × List Nat)) :
    ∀ (bfuel : Nat), 1 ≤ bfuel → ∀ (rest : List Nat),
    decodeBlocksGen item bfuel (0 :: rest) = .ok (([] : List α), rest) := by
  intro bfuel h rest
  match bfuel, h with
  | b + 1, _ =>
    simp only [decodeBlocksGen]
    rw [show decode_varint_zigzag (0 :: rest) = .ok ((0 : Int), rest) from rfl]
    simp

theorem blocks_single {α : Type} (item : List Nat → Except AvroError (α × List Nat))
    (vs : List α) (bsI : List Nat) (hne : vs ≠ [])
    (hlen : (vs.length : Int) < 2 ^ 63)
    (hitems : ∀ r2, decodeItemsGen item vs.length (bsI ++ r2) = .ok (vs, r2)) :
    ∀ (bfuel : Nat), 2 ≤ bfuel → ∀ (rest : List Nat),
    decodeBlocksGen item bfuel
      (encode_varint_zigzag (vs.length : Int) ++ (bsI ++ (0 :: rest))) = .ok (vs, rest) := by
  intro bfuel h2 rest
  match bfuel, h2 with
  | b + 2, _ =>
    have hpos : 0 < vs.length := List.length_pos.mpr hne
    have hne0 : ¬ ((vs.length : Int) = 0) := by omega
    have hpos2 : (0 : Int) < (vs.length : Int) := by omega
    simp only [decodeBlocksGen,
      zz_roundtrip (vs.length : Int) (by omega) hlen (bsI ++ (0 :: rest)),
      hne0, if_false, hpos2, if_true, Int.toNat_natCast, hitems]
    rw [show decode_varint_zigzag (0 :: rest) = .ok ((0 : Int), rest) from rfl]
    simp

theorem roundtrip_master : ∀ (fuel : Nat) (s : Schema) (v : Value),
    schemaSize s < fuel → MatchesAux fuel s v = true →
    ∃ bs, encodeAux fuel s v = .ok bs ∧
      ∀ fuel2 rest, schemaSize s < fuel2 → decodeAux fuel2 s (bs ++ rest) = .ok (v, rest) := by
  intro fuel
  induction fuel with
  | zero => intro s v h hm; omega
  | succ fuel ih =>
    intro s v hsz hm
    cases s with
    | snull =>
      cases v
      case vnull =>
        refine ⟨[], rfl, ?_⟩
        intro fuel2 rest hf2
        match fuel2, hf2 with
        | f2 + 1, _ => rfl
      all_goals exact absurd hm (by simp [MatchesAux])
    | sboolean =>
      cases v
      case vboolean b =>
        refine ⟨[if b then 1 else 0], rfl, ?_⟩
        intro fuel2 rest hf2
        match fuel2, hf2 with
        | f2 + 1, _ => cases b <;> rfl
      all_goals exact absurd hm (by simp [MatchesAux])
    | sint =>
      cases v
      case vint n =>
        simp only [MatchesAux, Bool.and_eq_true, decide_eq_true_eq] at hm
        refine ⟨encode_varint_zigzag n, ?_, ?_⟩
        · simp only [encodeAux]
          rw [if_pos (show -(2 ^ 31) ≤ n ∧ n < 2 ^ 31 from hm)]
        · intro fuel2 rest hf2
          match fuel2, hf2 with
          | f2 + 1, _ =>
            simp only [decodeAux, zz_roundtrip n (by omega) (by omega) rest]
      all_goals exact absurd hm (by simp [MatchesAux])
    | slong =>
      cases v
      case vlong n =>
        simp only [MatchesAux, Bool.and_eq_true, decide_eq_true_eq] at hm
        refine ⟨encode_varint_zigzag n, ?_, ?_⟩
        · simp only [encodeAux]
          rw [if_pos (show -(2 ^ 63) ≤ n ∧ n < 2 ^ 63 from hm)]
        · intro fuel2 rest hf2
          match fuel2, hf2 with
          | f2 + 1, _ =>
            simp only [decodeAux, zz_roundtrip n (by omega) (by omega) rest]
      all_goals exact absurd hm (by simp [MatchesAux])
    | sfloat =>
      cases v
      case vfloat bits =>
        simp only [MatchesAux, decide_eq_true_eq] at hm
        refine ⟨encodeFloatLE bits, ?_, ?_⟩
        · simp only [encodeAux]
          rw [if_pos hm]
        · intro fuel2 rest hf2
          match fuel2, hf2 with
          | f2 + 1, _ =>
            show decodeFloatLE (encodeFloatLE bits ++ rest) = .ok (.vfloat bits, rest)
            simp only [encodeFloatLE, List.cons_append, List.nil_append, decodeFloatLE]
            have harith : bits % 256 + 256 * (bits / 256 % 256) + 65536 * (bits / 65536 % 256) +
                16777216 * (bits / 16777216 % 256) = bits := by omega
            rw [harith]
      all_goals exact absurd hm (by simp [MatchesAux])
    | sdouble =>
      cases v
      case vdouble bits =>
        simp only [MatchesAux, decide_eq_true_eq] at hm
        refine ⟨encodeDoubleLE bits, ?_, ?_⟩
        · simp only [encodeAux]
          rw [if_pos hm]
        · intro fuel2 rest hf2
          match fuel2, hf2 with
          | f2 + 1, _ =>
            show decodeDoubleLE (encodeDoubleLE bits ++ rest) = .ok (.vdouble bits, rest)
            simp only [encodeDoubleLE, List.cons_append, List.nil_append, decodeDoubleLE]
            have harith : bits % 256 + 2 ^ 8 * (bits / 2 ^ 8 % 256) + 2 ^ 16 * (bits / 2 ^ 16 % 256) +
                2 ^ 24 * (bits / 2 ^ 24 % 256) + 2 ^ 32 * (bits / 2 ^ 32 % 256) +
                2 ^ 40 * (bits / 2 ^ 40 % 256) + 2 ^ 48 * (bits / 2 ^ 48 % 256) +
                2 ^ 56 * (bits / 2 ^ 56 % 256) = bits := by omega
            rw [harith]
      all_goals exact absurd hm (by simp [MatchesAux])
    | sbytes =>
      cases v
      case vbytes bs =>
        simp only [MatchesAux, Bool.and_eq_true, decide_eq_true_eq] at hm
        refine ⟨encode_varint_zigzag (bs.length : Int) ++ bs, rfl, ?_⟩
        intro fuel2 rest hf2
        match fuel2, hf2 with
        | f2 + 1, _ =>
          simp only [decodeAux, List.append_assoc,
            readLen_enc bs.length (by exact_mod_cast hm.1) (bs ++ rest), takeBytes_append]
      all_goals exact absurd hm (by simp [MatchesAux])
    | sstring =>
      cases v
      case vstring str =>
        simp only [MatchesAux, decide_eq_true_eq] at hm
        refine ⟨encodeString str, rfl, ?_⟩
        intro fuel2 rest hf2
        match fuel2, hf2 with
        | f2 + 1, _ =>
          simp only [decodeAux, string_roundtrip str hm rest]
      all_goals exact absurd hm (by simp [MatchesAux])
    | record name flds =>
      cases v
      case vrecord fvals =>
        simp only [MatchesAux, Bool.and_eq_true] at hm
        have hszrec : fieldsSize flds < fuel := by
          simp only [schemaSize] at hsz
          omega
        have hfor := matchFields_forall (MatchesAux fuel)
          (fun fs fv => ∃ bs, encodeAux fuel fs fv = .ok bs ∧
            ∀ f2 rest, fieldsSize flds < f2 → decodeAux f2 fs (bs ++ rest) = .ok (fv, rest))
          flds fvals hm.2 ?hp
        case hp =>
          intro p v2 hp hMv
          have hszp : schemaSize p.2 < fieldsSize flds := by
            obtain ⟨pn, ps⟩ := p
            exact fieldsSize_mem flds pn ps hp
          rcases ih p.2 v2 (by omega) hMv with ⟨bs, he, hd⟩
          exact ⟨bs, he, fun f2 rest hf => hd f2 rest (by omega)⟩
        rcases fields_roundtrip flds fvals hfor hm.1 with ⟨bsF, heF, hdF⟩
        refine ⟨bsF, heF, ?_⟩
        intro fuel2 rest hf2
        match fuel2, hf2 with
        | f2 + 1, hf2 =>
          have hfc : fieldsSize flds < f2 := by
            simp only [schemaSize] at hf2
            omega
          simp only [decodeAux, hdF f2 rest hfc]
      all_goals exact absurd hm (by simp [MatchesAux])
    | union bs =>
      simp only [MatchesAux, Bool.and_eq_true, decide_eq_true_eq] at hm
      obtain ⟨hblen, hm2⟩ := hm
      match hfm : firstMatch v bs with
      | none =>
        rw [hfm] at hm2
        simp at hm2
      | some (i, b) =>
        rw [hfm] at hm2
        have hm3 : MatchesAux fuel b v = true := hm2
        have hspec := firstMatch_spec bs v i b hfm
        have hszb : schemaSize b < branchesSize bs := branchesSize_mem bs b hspec.1
        have hszu : branchesSize bs < fuel := by
          simp only [schemaSize] at hsz
          omega
        rcases ih b v (by omega) hm3 with ⟨bsB, heB, hdB⟩
        refine ⟨encode_varint_zigzag (i : Int) ++ bsB, ?_, ?_⟩
        · simp only [encodeAux, hfm, heB]
        · intro fuel2 rest hf2
          match fuel2, hf2 with
          | f2 + 1, hf2 =>
            have hf2b : schemaSize b < f2 := by
              simp only [schemaSize] at hf2
              omega
            have hilt : (i : Int) < 2 ^ 63 := by
              have := hspec.2.1
              omega
            have hnneg : ¬ ((i : Int) < 0) := by omega
            simp only [decodeAux, List.append_assoc,
              zz_roundtrip (i : Int) (by omega) hilt (bsB ++ rest),
              hnneg, if_false, Int.toNat_natCast, hspec.2.2.1,
              hdB f2 rest hf2b]
    | array s2 =>
      cases v
      case varray items =>
        simp only [MatchesAux, Bool.and_eq_true, decide_eq_true_eq, List.all_eq_true] at hm
        obtain ⟨hlen, hall⟩ := hm
        have hsz2 : schemaSize s2 < fuel := by
          simp only [schemaSize] at hsz
          omega
        have hitems : ∀ v2 ∈ items, ∃ bs, encodeAux fuel s2 v2 = .ok bs ∧
            ∀ f2 rest, schemaSize s2 < f2 → decodeAux f2 s2 (bs ++ rest) = .ok (v2, rest) := by
          intro v2 hv2
          exact ih s2 v2 hsz2 (hall v2 hv2)
        rcases items_roundtrip items hitems with ⟨bsI, heI, hdI⟩
        by_cases hemp : items.isEmpty
        · have hie : items = [] := List.isEmpty_iff.mp hemp
          subst hie
          refine ⟨[0], rfl, ?_⟩
          intro fuel2 rest hf2
          match fuel2, hf2 with
          | f2 + 1, _ =>
            simp only [decodeAux]
            rw [show (([0] : List Nat) ++ rest) = 0 :: rest from rfl]
            rw [blocks_empty (decodeAux f2 s2) ((0 :: rest).length + 1) (by omega) rest]
        · have hne : items ≠ [] := by
            intro hcon
            subst hcon
            simp at hemp
          have hemp2 : items.isEmpty = false := by
            simpa using hemp
          refine ⟨encode_varint_zigzag (items.length : Int) ++ bsI ++ [0], ?_, ?_⟩
          · simp only [encodeAux, hemp2, Bool.false_eq_true, if_false, heI]
          · intro fuel2 rest hf2
            match fuel2, hf2 with
            | f2 + 1, hf2 =>
              have hsz2f : schemaSize s2 < f2 := by
                simp only [schemaSize] at hf2
                omega
              simp only [decodeAux]
              rw [show ((encode_varint_zigzag (items.length : Int) ++ bsI ++ [0]) ++ rest)
                  = encode_varint_zigzag (items.length : Int) ++ (bsI ++ (0 :: rest)) by simp]
              have hzne : encode_varint_zigzag (items.length : Int) ≠ [] := by
                unfold encode_varint_zigzag
                exact varintEncode_ne_nil _
              have hlb : 2 ≤ (encode_varint_zigzag (items.length : Int) ++
                  (bsI ++ (0 :: rest))).length + 1 := by
                have := List.length_pos.mpr hzne
                simp
                omega
              rw [blocks_single (decodeAux f2 s2) items bsI hne (by exact_mod_cast hlen)
                (fun r2 => hdI f2 r2 hsz2f) _ hlb rest]
      all_goals exact absurd hm (by simp [MatchesAux])
    | map s2 =>
      cases v
      case vmap entries =>
        simp only [MatchesAux, Bool.and_eq_true, decide_eq_true_eq, List.all_eq_true] at hm
        obtain ⟨hlen, hall⟩ := hm
        have hsz2 : schemaSize s2 < fuel := by
          simp only [schemaSize] at hsz
          omega
        have hentries : ∀ e ∈ entries, (stringToUtf8 e.1).length < 2 ^ 63 ∧
            ∃ bs, encodeAux fuel s2 e.2 = .ok bs ∧
            ∀ f2 rest, schemaSize s2 < f2 → decodeAux f2 s2 (bs ++ rest) = .ok (e.2, rest) := by
          intro e he
          have := hall e he
          simp only [Bool.and_eq_true, decide_eq_true_eq] at this
          exact ⟨this.1, ih s2 e.2 hsz2 this.2⟩
        rcases entries_roundtrip entries hentries with ⟨bsE, heE, hdE⟩
        by_cases hemp : entries.isEmpty
        · have hie : entries = [] := List.isEmpty_iff.mp hemp
          subst hie
          refine ⟨[0], rfl, ?_⟩
          intro fuel2 rest hf2
          match fuel2, hf2 with
          | f2 + 1, _ =>
            simp only [decodeAux]
            rw [show (([0] : List Nat) ++ rest) = 0 :: rest from rfl]
            rw [blocks_empty (decodeEntry (decodeAux f2 s2)) ((0 :: rest).length + 1)
              (by omega) rest]
        · have hne : entries ≠ [] := by
            intro hcon
            subst hcon
            simp at hemp
          have hemp2 : entries.isEmpty = false := by
            simpa using hemp
          refine ⟨encode_varint_zigzag (entries.length : Int) ++ bsE ++ [0], ?_, ?_⟩
          · simp only [encodeAux, hemp2, Bool.false_eq_true, if_false, heE]
          · intro fuel2 rest hf2
            match fuel2, hf2 with
            | f2 + 1, hf2 =>
              have hsz2f : schemaSize s2 < f2 := by
                simp only [schemaSize] at hf2
                omega
              simp only [decodeAux]
              rw [show ((encode_varint_zigzag (entries.length : Int) ++ bsE ++ [0]) ++ rest)
                  = encode_varint_zigzag (entries.length : Int) ++ (bsE ++ (0 :: rest)) by simp]
              have hzne : encode_varint_zigzag (entries.length : Int) ≠ [] := by
                unfold encode_varint_zigzag
                exact varintEncode_ne_nil _
              have hlb : 2 ≤ (encode_varint_zigzag (entries.length : Int) ++
                  (bsE ++ (0 :: rest))).length + 1 := by
                have := List.length_pos.mpr hzne
                simp
                omega
              rw [blocks_single (decodeEntry (decodeAux f2 s2)) entries bsE hne
                (by exact_mod_cast hlen) (fun r2 => hdE f2 r2 hsz2f) _ hlb rest]
      all_goals exact absurd hm (by simp [MatchesAux])
    | enum syms =>
      cases v
      case vstring sym =>
        simp only [MatchesAux, Bool.and_eq_true, decide_eq_true_eq] at hm
        obtain ⟨hslen, hcont⟩ := hm
        rcases findIndex_spec syms sym hcont with ⟨i, hfi, hilt, hget⟩
        refine ⟨encode_varint_zigzag (i : Int), ?_, ?_⟩
        · simp only [encodeAux, hfi]
        · intro fuel2 rest hf2
          match fuel2, hf2 with
          | f2 + 1, _ =>
            have hilt2 : (i : Int) < 2 ^ 63 := by omega
            have hnneg : ¬ ((i : Int) < 0) := by omega
            simp only [decodeAux, zz_roundtrip (i : Int) (by omega) hilt2 rest,
              hnneg, if_false, Int.toNat_natCast, hget]
      all_goals exact absurd hm (by simp [MatchesAux])
    | fixed len =>
      cases v
      case vbytes bs2 =>
        simp only [MatchesAux, Bool.and_eq_true, decide_eq_true_eq] at hm
        obtain ⟨hblen, hbv⟩ := hm
        subst hblen
        refine ⟨bs2, ?_, ?_⟩
        · simp [encodeAux]
        · intro fuel2 rest hf2
          match fuel2, hf2 with
          | f2 + 1, _ =>
            simp only [decodeAux, takeBytes_append]
      all_goals exact absurd hm (by simp [MatchesAux])

/-- The Person schema literal of the benchmark source (avro_python_bench.py,
SCHEMA), in the Schema model: record Person with a string name, an int age, a
union [null, string] email and an array of string phone numbers. -/
def SCHEMA : Schema :=
  .record "Person" [("name", .sstring), ("age", .sint),
    ("email", .union [.snull, .sstring]), ("phone_numbers", .array .sstring)]

/-- Python's format specifier 04d: decimal digits left-padded with zeros to
width at least 4. -/
def pad4 (n : Nat) : String :=
  if (Nat.repr n).length < 4 then
    String.mk (List.replicate (4 - (Nat.repr n).length) (Char.ofNat 48)) ++ Nat.repr n
  else Nat.repr n

/-- The create_person record generator of the benchmark source: name
"Person_i", age 20 + i mod 60, email "personi@example.com" when i mod 3 = 0
and null otherwise, and 1 + i mod 3 phone numbers "+1-555-" followed by
i * 10 + j zero-padded to 4 digits. -/
def create_person (i : Nat) : Value :=
  .vrecord [
    ("name", .vstring ("Person_" ++ Nat.repr i)),
    ("age", .vint ((20 + i % 60 : Nat) : Int)),
    ("email", if i % 3 = 0 then Value.vstring ("person" ++ Nat.repr i ++ "@example.com")
      else Value.vnull),
    ("phone_numbers", .varray ((List.range (1 + i % 3)).map
      (fun j => Value.vstring ("+1-555-" ++ pad4 (i * 10 + j)))))]

theorem utf8EncodeChar_length_le (c : Char) : (utf8EncodeChar c).length ≤ 4 := by
  unfold utf8EncodeChar
  split
  · simp
  · split
    · simp
    · split <;> simp

theorem utf8Encode_length_le (cs : List Char) : (utf8Encode cs).length ≤ 4 * cs.length := by
  induction cs with
  | nil => simp [utf8Encode]
  | cons c cs ih =>
    simp only [utf8Encode, List.length_append, List.length_cons]
    have := utf8EncodeChar_length_le c
    omega

theorem stringToUtf8_length_le (s : String) : (stringToUtf8 s).length ≤ 4 * s.data.length :=
  utf8Encode_length_le s.data

theorem pad4_data_length_le (n : Nat) : (pad4 n).data.length ≤ 4 + (Nat.repr n).length := by
  unfold pad4
  split
  · rw [String.data_append]
    simp only [List.length_append, List.length_replicate]
    have hr : (Nat.repr n).data.length = (Nat.repr n).length := rfl
    omega
  · have : (Nat.repr n).data.length = (Nat.repr n).length := rfl
    omega

set_option maxHeartbeats 1000000 in
theorem matches_person (i : Nat) (hi : i < 10 ^ 1000) :
    Matches SCHEMA (create_person i) = true := by
  have hrepr : (Nat.repr i).length ≤ 1000 := Nat.repr_length i 1000 (by omega) hi
  have hname : (stringToUtf8 ("Person_" ++ Nat.repr i)).length < 2 ^ 63 := by
    have h1 := stringToUtf8_length_le ("Person_" ++ Nat.repr i)
    have h2 : ("Person_" ++ Nat.repr i).data.length = 7 + (Nat.repr i).length := by
      rw [String.data_append, List.length_append]
      rfl
    omega
  have hemail : (stringToUtf8 ("person" ++ Nat.repr i ++ "@example.com")).length < 2 ^ 63 := by
    have h1 := stringToUtf8_length_le ("person" ++ Nat.repr i ++ "@example.com")
    have h2 : ("person" ++ Nat.repr i ++ "@example.com").data.length
        = 6 + (Nat.repr i).length + 12 := by
      rw [String.data_append, String.data_append, List.length_append, List.length_append]
      rfl
    omega
  have hphone : ∀ j : Nat, j < 3 →
      (stringToUtf8 ("+1-555-" ++ pad4 (i * 10 + j))).length < 2 ^ 63 := by
    intro j hj
    have h1 := stringToUtf8_length_le ("+1-555-" ++ pad4 (i * 10 + j))
    have h2 : ("+1-555-" ++ pad4 (i * 10 + j)).data.length
        = 7 + (pad4 (i * 10 + j)).data.length := by
      rw [String.data_append, List.length_append]
      rfl
    have h3 := pad4_data_length_le (i * 10 + j)
    have hp : 10 ^ 1000 * 10 = 10 ^ 1001 := by
      rw [← pow_succ]
    have hlt : i * 10 + j < 10 ^ 1002 := by
      have h10 : (10 : Nat) ^ 1001 < 10 ^ 1002 := Nat.pow_lt_pow_right (by omega) (by omega)
      omega
    have h4 := Nat.repr_length (i * 10 + j) 1002 (by omega) hlt
    omega
  show MatchesAux 17 SCHEMA (create_person i) = true
  by_cases h3 : i % 3 = 0
  · simp only [SCHEMA, create_person, if_pos h3]
    simp [MatchesAux, matchFields, listNodup, firstMatch, kindMatches]
    refine ⟨by omega, ⟨by omega, by omega⟩, by omega, by omega, ?_⟩
    intro a ha
    have := hphone a (by omega)
    omega
  · simp only [SCHEMA, create_person, if_neg h3]
    simp [MatchesAux, matchFields, listNodup, firstMatch, kindMatches]
    refine ⟨by omega, ⟨by omega, by omega⟩, by omega, ?_⟩
    intro a ha
    have := hphone a (by omega)
    omega

/-- Claim C1: for every supported Schema/Value pair, decoding the bytes
produced by encoding the value under that schema yields the value back
(with any trailing bytes untouched); in particular decoding the encoding of
create_person i under the Person schema yields create_person i back, and
create_person i is a supported value of the Person schema for every i up to
10^1000 (beyond that astronomical bound the decimal digits of i would
themselves overflow the 64-bit wire length counter of the name string). -/
theorem claim_C1_roundtrip :
    (∀ (s : Schema) (v : Value), Matches s v = true →
      ∃ bs, encode s v = .ok bs ∧ ∀ rest, decode s (bs ++ rest) = .ok (v, rest)) ∧
    (∀ i : Nat, Matches SCHEMA (create_person i) = true →
      ∃ bs, encode SCHEMA (create_person i) = .ok bs ∧
        decode SCHEMA bs = .ok (create_person i, [])) ∧
    (∀ i : Nat, i < 10 ^ 1000 → Matches SCHEMA (create_person i) = true) := by
  have hgen : ∀ (s : Schema) (v : Value), Matches s v = true →
      ∃ bs, encode s v = .ok bs ∧ ∀ rest, decode s (bs ++ rest) = .ok (v, rest) := by
    intro s v hm
    rcases roundtrip_master (schemaSize s + 1) s v (by omega) hm with ⟨bs, he, hd⟩
    exact ⟨bs, he, fun rest => hd (schemaSize s + 1) rest (by omega)⟩
  refine ⟨hgen, ?_, matches_person⟩
  intro i hm
  rcases hgen SCHEMA (create_person i) hm with ⟨bs, he, hd⟩
  refine ⟨bs, he, ?_⟩
  have hd2 := hd []
  rwa [List.append_nil] at hd2

/-- Witness for claim C1 at the Person schema and create_person 0. -/
theorem claim_C1_roundtrip_witness :
    Matches SCHEMA (create_person 0) = true ∧
    (∃ bs, encode SCHEMA (create_person 0) = .ok bs ∧
      decode SCHEMA bs = .ok (create_person 0, [])) ∧
    Matches SCHEMA (create_person 7) = true :=
  ⟨rfl, claim_C1_roundtrip.2.1 0 rfl, claim_C1_roundtrip.2.2 7 (by norm_num)⟩

/-- Claim C4 counterexample: the first generated record create_person 0 is
not the value claimed by the specification, because 0 mod 3 = 0 makes the
email field the string "person0@example.com" rather than null. -/
theorem claim_C4_counterexample :
    create_person 0 ≠ Value.vrecord [("name", .vstring "Person_0"), ("age", .vint 20),
      ("email", .vnull), ("phone_numbers", .varray [.vstring "+1-555-0000"])] := by
  simp [create_person]

/-- Claim C4 as amended: the first generated record (i = 0) is
{name "Person_0", age 20, email "person0@example.com", phones
["+1-555-0000"]} (the email is a string, not null, because 0 mod 3 = 0),
and encoding it produces one deterministic byte sequence: the name's
length prefix 16 and bytes, the zigzag-encoded age 40, union index 1
(byte 2) for the string email followed by the email's length prefix 38
and bytes, and the phones array as block count 1 (byte 2), the one item,
and the terminator 0. -/
theorem claim_C4_amended :
    create_person 0 = Value.vrecord [("name", .vstring "Person_0"), ("age", .vint 20),
      ("email", .vstring "person0@example.com"),
      ("phone_numbers", .varray [.vstring "+1-555-0000"])] ∧
    encode SCHEMA (create_person 0) = .ok [16, 80, 101, 114, 115, 111, 110, 95, 48, 40,
      2, 38, 112, 101, 114, 115, 111, 110, 48, 64, 101, 120, 97, 109, 112, 108, 101, 46,
      99, 111, 109, 2, 22, 43, 49, 45, 53, 53, 53, 45, 48, 48, 48, 48, 0] :=
  ⟨rfl, rfl⟩

/-- Claim C5: encoding a union value writes the index of the first schema
branch whose kind structurally matches the runtime value, followed by the
value encoded under that branch; for the email union [null, string] this
selects index 0 for a null value and index 1 for a string value; decoding a
union index that is negative or at least the branch count fails with
InvalidUnionIndex. -/
theorem claim_C5_union_selection :
    (∀ (bs : List Schema) (v : Value) (i : Nat) (b : Schema) (bb : List Nat),
      firstMatch v bs = some (i, b) →
      encodeAux (schemaSize (Schema.union bs)) b v = .ok bb →
      encode (Schema.union bs) v = .ok (encode_varint_zigzag (i : Int) ++ bb) ∧
      kindMatches b v = true ∧
      ∀ j (hj : j < bs.length), j < i → kindMatches (bs.get ⟨j, hj⟩) v = false) ∧
    encode (Schema.union [.snull, .sstring]) Value.vnull = .ok [0] ∧
    (∀ str : String, encode (Schema.union [.snull, .sstring]) (Value.vstring str)
      = .ok (2 :: encodeString str)) ∧
    (∀ (bs : List Schema) (idx : Int) (rest : List Nat),
      -(2 ^ 63) ≤ idx → idx < 2 ^ 63 → (idx < 0 ∨ (bs.length : Int) ≤ idx) →
      decode (Schema.union bs) (encode_varint_zigzag idx ++ rest)
        = .error .InvalidUnionIndex) := by
  refine ⟨?_, rfl, fun str => rfl, ?_⟩
  · intro bs v i b bb hfm hEb
    have hspec := firstMatch_spec bs v i b hfm
    refine ⟨?_, hspec.2.2.2.1, fun j hj hji => hspec.2.2.2.2 j hji hj⟩
    unfold encode
    simp only [encodeAux, hfm, hEb]
  · intro bs idx rest h0 h1 hbad
    unfold decode
    simp only [decodeAux, zz_roundtrip idx h0 h1 rest]
    rcases hbad with hneg | hge
    · rw [if_pos hneg]
    · have hnneg : ¬ (idx < 0) := by omega
      rw [if_neg hnneg]
      have hnone : bs[idx.toNat]? = none := by
        apply List.getElem?_eq_none
        omega
      rw [hnone]

/-- Witness for claim C5 at the email union [null, string]: the null value
selects branch 0 with empty payload, and decoding index 5 fails. -/
theorem claim_C5_union_selection_witness :
    (encode (Schema.union [.snull, .sstring]) Value.vnull
        = .ok (encode_varint_zigzag (0 : Int) ++ []) ∧
      kindMatches Schema.snull Value.vnull = true ∧
      ∀ j (hj : j < ([Schema.snull, Schema.sstring]).length), j < 0 →
        kindMatches (([Schema.snull, Schema.sstring]).get ⟨j, hj⟩) Value.vnull = false) ∧
    decode (Schema.union [.snull, .sstring]) (encode_varint_zigzag 5 ++ [9])
      = .error .InvalidUnionIndex :=
  ⟨claim_C5_union_selection.1 [.snull, .sstring] Value.vnull 0 Schema.snull [] rfl rfl,
    claim_C5_union_selection.2.2.2 [.snull, .sstring] 5 [9] (by norm_num) (by norm_num)
      (Or.inr (by norm_num))⟩

theorem encodeFields_ext {enc : Schema → Value → Except AvroError (List Nat)} :
    ∀ (flds : List (String × Schema)) (f1 f2 : List (String × Value)),
    (∀ k, lookupField k f1 = lookupField k f2) →
    encodeFields enc flds f1 = encodeFields enc flds f2 := by
  intro flds
  induction flds with
  | nil => intro f1 f2 h; rfl
  | cons p rest ih =>
    intro f1 f2 h
    obtain ⟨n, fs⟩ := p
    simp only [encodeFields, h n, ih f1 f2 h]

/-- Claim C6: record encoding is invariant to the order in which the caller
listed the record's fields; any two record values with equal
field-name-to-value mappings encode to identical byte sequences under the
same schema, wire order being fixed by the schema's declared field order.
Determinism itself is definitional here, since encode is a pure function of
the schema and the value. -/
theorem claim_C6_field_order :
    ∀ (fuel : Nat) (name : String) (flds : List (String × Schema))
      (f1 f2 : List (String × Value)),
    (∀ k, lookupField k f1 = lookupField k f2) →
    encodeAux fuel (.record name flds) (.vrecord f1)
        = encodeAux fuel (.record name flds) (.vrecord f2) ∧
    encode (.record name flds) (.vrecord f1) = encode (.record name flds) (.vrecord f2) := by
  have hfuel : ∀ (fuel : Nat) (name : String) (flds : List (String × Schema))
      (f1 f2 : List (String × Value)),
      (∀ k, lookupField k f1 = lookupField k f2) →
      encodeAux fuel (.record name flds) (.vrecord f1)
        = encodeAux fuel (.record name flds) (.vrecord f2) := by
    intro fuel name flds f1 f2 h
    match fuel with
    | 0 => rfl
    | fuel + 1 =>
      show encodeFields (encodeAux fuel) flds f1 = encodeFields (encodeAux fuel) flds f2
      exact encodeFields_ext flds f1 f2 h
  intro fuel name flds f1 f2 h
  exact ⟨hfuel fuel name flds f1 f2 h,
    hfuel (schemaSize (Schema.record name flds) + 1) name flds f1 f2 h⟩

/-- Witness for claim C6: two field orders of the same two-field mapping
encode identically. -/
theorem claim_C6_field_order_witness :
    encodeAux 5 (.record "R" [("a", .snull), ("b", .sboolean)])
        (.vrecord [("a", Value.vnull), ("b", Value.vboolean true)])
      = encodeAux 5 (.record "R" [("a", .snull), ("b", .sboolean)])
        (.vrecord [("b", Value.vboolean true), ("a", Value.vnull)]) ∧
    encode (.record "R" [("a", .snull), ("b", .sboolean)])
        (.vrecord [("a", Value.vnull), ("b", Value.vboolean true)])
      = encode (.record "R" [("a", .snull), ("b", .sboolean)])
        (.vrecord [("b", Value.vboolean true), ("a", Value.vnull)]) := by
  have hl : ∀ k, lookupField k [("a", Value.vnull), ("b", Value.vboolean true)]
      = lookupField k [("b", Value.vboolean true), ("a", Value.vnull)] := by
    intro k
    by_cases ha : "a" = k
    · have hb : ¬ ("b" = k) := by
        rw [← ha]
        decide
      simp [lookupField, ha, hb]
    · by_cases hb : "b" = k
      · simp [lookupField, ha, hb]
      · simp [lookupField, ha, hb]
  exact claim_C6_field_order 5 "R" [("a", .snull), ("b", .sboolean)]
    [("a", Value.vnull), ("b", Value.vboolean true)]
    [("b", Value.vboolean true), ("a", Value.vnull)] hl

/-- Modelled from the spec: a pluggable whole-block compression codec, a pair
of compress and decompress functions on byte blocks. -/
structure CompressionCodec where
  comp : List Nat → List Nat
  decomp : List Nat → Except AvroError (List Nat)

/-- Modelled from the spec: the compression codec registry; the required
null codec is the identity passthrough. -/
def codecRegistry : List (String × CompressionCodec) :=
  [("null", ⟨fun bs => bs, fun bs => .ok bs⟩)]

/-- Registry search by codec name. -/
def lookupCodecIn : List (String × CompressionCodec) → String → Option CompressionCodec
  | [], _ => none
  | (n, c) :: rest, name => if n = name then some c else lookupCodecIn rest name

/-- Modelled from the spec: codec selection by name; a name outside the
registry is unsupported. -/
def lookupCodec (name : String) : Option CompressionCodec :=
  lookupCodecIn codecRegistry name

/-- Registry search by the raw metadata bytes of the codec name, as a reader
finds them in the avro.codec metadata entry. -/
def lookupCodecByBytes : List (String × CompressionCodec) → List Nat → Option CompressionCodec
  | [], _ => none
  | (n, c) :: rest, bs => if stringToUtf8 n = bs then some c else lookupCodecByBytes rest bs

/-- Comma-separated rendering of record fields for the canonical schema
text. -/
def fieldsToText (f : Schema → String) : List (String × Schema) → String
  | [] => ""
  | [(n, fs)] => "\x7b\"name\":\"" ++ n ++ "\",\"type\":" ++ f fs ++ "\x7d"
  | (n, fs) :: rest =>
    "\x7b\"name\":\"" ++ n ++ "\",\"type\":" ++ f fs ++ "\x7d," ++ fieldsToText f rest

/-- Comma-separated rendering of union branches. -/
def branchesToText (f : Schema → String) : List Schema → String
  | [] => ""
  | [b] => f b
  | b :: rest => f b ++ "," ++ branchesToText f rest

/-- Comma-separated rendering of enum symbols. -/
def symsToText : List String → String
  | [] => ""
  | [x] => "\"" ++ x ++ "\""
  | x :: rest => "\"" ++ x ++ "\"," ++ symsToText rest

/-- Modelled from the spec: the canonical JSON-like text form of a schema,
stored under the avro.schema metadata key.  Fuel-indexed for structural
recursion.  The reader never re-parses this text in the model: parse_schema
is an external collaborator (spec section 6) and reader schema equals writer
schema (spec section 9). -/
def schemaToTextAux : Nat → Schema → String
  | 0, _ => ""
  | fuel + 1, s =>
    match s with
    | .snull => "\"null\""
    | .sboolean => "\"boolean\""
    | .sint => "\"int\""
    | .slong => "\"long\""
    | .sfloat => "\"float\""
    | .sdouble => "\"double\""
    | .sbytes => "\"bytes\""
    | .sstring => "\"string\""
    | .record name flds =>
      "\x7b\"type\":\"record\",\"name\":\"" ++ name ++ "\",\"fields\":[" ++
        fieldsToText (schemaToTextAux fuel) flds ++ "]\x7d"
    | .union bs => "[" ++ branchesToText (schemaToTextAux fuel) bs ++ "]"
    | .array s2 => "\x7b\"type\":\"array\",\"items\":" ++ schemaToTextAux fuel s2 ++ "\x7d"
    | .map s2 => "\x7b\"type\":\"map\",\"values\":" ++ schemaToTextAux fuel s2 ++ "\x7d"
    | .enum syms => "\x7b\"type\":\"enum\",\"symbols\":[" ++ symsToText syms ++ "]\x7d"
    | .fixed len => "\x7b\"type\":\"fixed\",\"size\":" ++ Nat.repr len ++ "\x7d"

/-- Canonical schema text with fuel from the schema size. -/
def schemaToText (s : Schema) : String :=
  schemaToTextAux (schemaSize s + 1) s

/-- Modelled from the spec: the 4 magic bytes Obj followed by 1. -/
def MAGIC : List Nat := [79, 98, 106, 1]

/-- Modelled from the spec: the file metadata is an Avro map of string to
bytes (encoded with this very codec, bootstrapped). -/
def metaSchema : Schema := .map .sbytes

/-- Modelled from the spec: the metadata entries avro.schema (canonical text
of the schema) and avro.codec (codec name). -/
def metaValue (s : Schema) (codecName : String) : Value :=
  .vmap [("avro.schema", .vbytes (stringToUtf8 (schemaToText s))),
    ("avro.codec", .vbytes (stringToUtf8 codecName))]

/-- Modelled from the spec: the container header, written exactly once:
magic bytes, metadata map, 16-byte sync marker. -/
def headerBytes (s : Schema) (codecName : String) (sync : List Nat) : List Nat :=
  MAGIC ++ ((encode metaSchema (metaValue s codecName)).toOption.getD []) ++ sync

/-- Modelled from the spec: the write-side state of one open container file:
the immutable parameters, the buffer of encoded-but-unflushed records, and
the bytes written so far. -/
structure CFWriter where
  sch : Schema
  codecName : String
  codec : CompressionCodec
  sync : List Nat
  threshold : Nat
  buffer : List (List Nat)
  out : List Nat

/-- Modelled from the spec: one block: record count, compressed byte length,
compressed payload, then the sync marker repeated verbatim. -/
def mkBlock (codec : CompressionCodec) (sync : List Nat) (recs : List (List Nat)) : List Nat :=
  encode_varint_zigzag (recs.length : Int) ++
    encode_varint_zigzag ((codec.comp recs.flatten).length : Int) ++
    codec.comp recs.flatten ++ sync

/-- Modelled from the spec: opening a writer writes the header once and
starts with an empty buffer. -/
def cfOpen (sch : Schema) (codecName : String) (codec : CompressionCodec) (sync : List Nat)
    (threshold : Nat) : CFWriter :=
  ⟨sch, codecName, codec, sync, threshold, [], headerBytes sch codecName sync⟩

/-- Modelled from the spec: flushing compresses the buffered records into one
block, appends it with framing, and clears the buffer; an empty buffer
flushes to nothing. -/
def cfFlush (w : CFWriter) : CFWriter :=
  if w.buffer.isEmpty then w
  else { w with out := w.out ++ mkBlock w.codec w.sync w.buffer, buffer := [] }

/-- Modelled from the spec: append buffers the encoded record and flushes
when the buffered count reaches the flush threshold. -/
def cfAppend (w : CFWriter) (v : Value) : Except AvroError CFWriter :=
  match encode w.sch v with
  | .ok bs =>
    .ok (if w.threshold ≤ w.buffer.length + 1
      then cfFlush { w with buffer := w.buffer ++ [bs] }
      else { w with buffer := w.buffer ++ [bs] })
  | .error e => .error e

/-- Sequential appends. -/
def cfAppendAll : CFWriter → List Value → Except AvroError CFWriter
  | w, [] => .ok w
  | w, v :: vs =>
    match cfAppend w v with
    | .ok w2 => cfAppendAll w2 vs
    | .error e => .error e

/-- Modelled from the spec: close flushes any remaining buffered records even
below the threshold, never silently dropping trailing records. -/
def cfClose (w : CFWriter) : List Nat :=
  (cfFlush w).out

/-- Modelled from the spec: the whole write path - open, append every value,
close - returning the container file bytes. -/
def writeContainer (sch : Schema) (codecName : String) (sync : List Nat) (threshold : Nat)
    (values : List Value) : Except AvroError (List Nat) :=
  match lookupCodec codecName with
  | some codec =>
    match cfAppendAll (cfOpen sch codecName codec sync threshold) values with
    | .ok w => .ok (cfClose w)
    | .error e => .error e
  | none => .error .UnknownCodec

/-- Decode a known number of records from a decompressed block payload. -/
def decodeRecords (sch : Schema) : Nat → List Nat → Except AvroError (List Value × List Nat)
  | 0, input => .ok ([], input)
  | c + 1, input =>
    match decode sch input with
    | .ok (v, r) =>
      match decodeRecords sch c r with
      | .ok (vs, r2) => .ok (v :: vs, r2)
      | .error e => .error e
    | .error e => .error e

/-- Modelled from the spec: the block read loop: count, byte length, exactly
that many payload bytes, decompress, verify the sync marker, decode count
records; end of stream must fall on a block boundary.  Fuel-indexed for
structural recursion; each block consumes at least one byte. -/
def readBlocks (sch : Schema) (codec : CompressionCodec) (sync : List Nat) :
    Nat → List Nat → Except AvroError (List Value)
  | 0, _ => .error .TruncatedContainer
  | _ + 1, [] => .ok []
  | bfuel + 1, b :: input =>
    match decode_varint_zigzag (b :: input) with
    | .ok (cnt, r1) =>
      if cnt < 0 then .error .TruncatedContainer
      else
        match decode_varint_zigzag r1 with
        | .ok (len, r2) =>
          if len < 0 then .error .NegativeLength
          else if r2.length < len.toNat then .error .TruncatedContainer
          else if (r2.drop len.toNat).take 16 = sync then
            match codec.decomp (r2.take len.toNat) with
            | .ok raw =>
              match decodeRecords sch cnt.toNat raw with
              | .ok (recs, rem) =>
                if rem = [] then
                  match readBlocks sch codec sync bfuel ((r2.drop len.toNat).drop 16) with
                  | .ok more => .ok (recs ++ more)
                  | .error e => .error e
                else .error .TruncatedContainer
              | .error e => .error e
            | .error e => .error e
          else .error .SyncMarkerMismatch
        | .error e => .error e
    | .error e => .error e

/-- Modelled from the spec: the read path: validate the magic bytes, decode
the metadata map, resolve the codec from the avro.codec entry (a missing
entry means the null codec), take the 16-byte sync marker, then loop over
blocks until end of stream.  The reader schema is supplied by the caller:
parse_schema is an external collaborator and reader schema equals writer
schema (spec sections 6 and 9). -/
def readContainer (sch : Schema) (input : List Nat) : Except AvroError (List Value) :=
  if input.take 4 = MAGIC then
    match decode metaSchema (input.drop 4) with
    | .ok (meta, r2) =>
      match meta with
      | .vmap entries =>
        match
          (match lookupField "avro.codec" entries with
           | some (.vbytes cbs) => lookupCodecByBytes codecRegistry cbs
           | some _ => none
           | none => lookupCodec "null") with
        | some codec =>
          if r2.length < 16 then .error .TruncatedContainer
          else readBlocks sch codec (r2.take 16) ((r2.drop 16).length + 1) (r2.drop 16)
        | none => .error .UnknownCodec
      | _ => .error .TruncatedContainer
    | .error e => .error e
  else .error .InvalidMagic

/-- The byte encoding of one conforming value (total function form). -/
def encB (sch : Schema) (v : Value) : List Nat :=
  (encode sch v).toOption.getD []

theorem lookupCodec_props (name : String) (codec : CompressionCodec)
    (h : lookupCodec name = some codec) :
    name = "null" ∧ (∀ bs, codec.comp bs = bs) ∧ (∀ bs, codec.decomp bs = .ok bs) ∧
    lookupCodecByBytes codecRegistry (stringToUtf8 name) = some codec := by
  unfold lookupCodec codecRegistry lookupCodecIn at h
  by_cases hn : "null" = name
  · rw [if_pos hn] at h
    injection h with h
    subst h
    refine ⟨hn.symm, fun bs => rfl, fun bs => rfl, ?_⟩
    rw [← hn]
    simp [lookupCodecByBytes, codecRegistry]
  · rw [if_neg hn] at h
    exact Option.noConfusion h

theorem wrapper_roundtrip (s : Schema) (v : Value) (hm : Matches s v = true) :
    encode s v = .ok (encB s v) ∧
    ∀ rest, decode s (encB s v ++ rest) = .ok (v, rest) := by
  rcases roundtrip_master (schemaSize s + 1) s v (by omega) hm with ⟨bs, he, hd⟩
  have hB : encB s v = bs := by
    unfold encB encode
    rw [show encodeAux (schemaSize s + 1) s v = .ok bs from he]
    rfl
  rw [hB]
  exact ⟨he, fun rest => hd (schemaSize s + 1) rest (by omega)⟩

theorem decodeRecords_ok (sch : Schema) :
    ∀ (g : List Value), (∀ v ∈ g, Matches sch v = true) →
    ∀ r, decodeRecords sch g.length ((g.map (encB sch)).flatten ++ r) = .ok (g, r) := by
  intro g
  induction g with
  | nil => intro _ r; rfl
  | cons v vs ih =>
    intro h r
    have hv := wrapper_roundtrip sch v (h v (by simp))
    have hih := ih (fun w hw => h w (by simp [hw])) r
    simp only [List.length_cons, List.map_cons, List.flatten_cons, List.append_assoc,
      decodeRecords, hv.2 ((vs.map (encB sch)).flatten ++ r), hih]

theorem decodeRecords_exact (sch : Schema) (g : List Value)
    (h : ∀ v ∈ g, Matches sch v = true) :
    decodeRecords sch g.length ((g.map (encB sch)).flatten) = .ok (g, []) := by
  have := decodeRecords_ok sch g h []
  rwa [List.append_nil] at this

theorem readBlocks_step (sch : Schema) (codec : CompressionCodec) (sync : List Nat)
    (hsync : sync.length = 16)
    (hdecomp : ∀ bs, codec.decomp bs = .ok bs)
    (g : List Value) (hgm : ∀ v ∈ g, Matches sch v = true)
    (hgc : g.length < 2 ^ 63)
    (hgp : ((g.map (encB sch)).flatten).length < 2 ^ 63)
    (bfuel : Nat) (rest : List Nat) :
    readBlocks sch codec sync (bfuel + 1)
      (encode_varint_zigzag (g.length : Int) ++
        (encode_varint_zigzag (((g.map (encB sch)).flatten).length : Int) ++
          ((g.map (encB sch)).flatten ++ (sync ++ rest)))) =
    match readBlocks sch codec sync bfuel rest with
    | .ok more => .ok (g ++ more)
    | .error e => .error e := by
  have hcnt2 : ((g.length : Int)) < 2 ^ 63 := by omega
  have hpay2 : ((((g.map (encB sch)).flatten).length : Int)) < 2 ^ 63 := by omega
  have hzne : encode_varint_zigzag (g.length : Int) ≠ [] := by
    unfold encode_varint_zigzag
    exact varintEncode_ne_nil _
  match hzz : encode_varint_zigzag (g.length : Int), hzne with
  | zb :: zrest, _ =>
    rw [List.cons_append]
    simp only [readBlocks]
    have hz1 : decode_varint_zigzag (zb :: (zrest ++
        (encode_varint_zigzag (((g.map (encB sch)).flatten).length : Int) ++
          ((g.map (encB sch)).flatten ++ (sync ++ rest))))) =
        .ok ((g.length : Int),
          encode_varint_zigzag (((g.map (encB sch)).flatten).length : Int) ++
            ((g.map (encB sch)).flatten ++ (sync ++ rest))) := by
      rw [← List.cons_append, ← hzz]
      exact zz_roundtrip _ (by omega) hcnt2 _
    have hz2 : decode_varint_zigzag
        (encode_varint_zigzag (((g.map (encB sch)).flatten).length : Int) ++
          ((g.map (encB sch)).flatten ++ (sync ++ rest))) =
        .ok ((((g.map (encB sch)).flatten).length : Int),
          (g.map (encB sch)).flatten ++ (sync ++ rest)) :=
      zz_roundtrip _ (by omega) hpay2 _
    have hnn1 : ¬ ((g.length : Int) < 0) := by omega
    have hnn2 : ¬ ((((g.map (encB sch)).flatten).length : Int) < 0) := by omega
    have htk : ¬ (((g.map (encB sch)).flatten ++ (sync ++ rest)).length <
        ((((g.map (encB sch)).flatten).length : Int)).toNat) := by
      rw [Int.toNat_natCast]
      simp
    have htake : ((g.map (encB sch)).flatten ++ (sync ++ rest)).take
        ((((g.map (encB sch)).flatten).length : Int)).toNat = (g.map (encB sch)).flatten := by
      rw [Int.toNat_natCast, List.take_left]
    have hdrop : ((g.map (encB sch)).flatten ++ (sync ++ rest)).drop
        ((((g.map (encB sch)).flatten).length : Int)).toNat = sync ++ rest := by
      rw [Int.toNat_natCast, List.drop_left]
    have htake16 : (sync ++ rest).take 16 = sync := by
      rw [← hsync, List.take_left]
    have hdrop16 : (sync ++ rest).drop 16 = rest := by
      rw [← hsync, List.drop_left]
    have hdr : decodeRecords sch ((g.length : Int)).toNat ((g.map (encB sch)).flatten) =
        .ok (g, []) := by
      rw [Int.toNat_natCast]
      exact decodeRecords_exact sch g hgm
    simp only [hz1, if_neg hnn1, hz2, if_neg hnn2, if_neg htk, hdrop, htake, htake16,
      if_pos rfl, hdecomp, hdr, hdrop16]
    cases hR : readBlocks sch codec sync bfuel rest with
    | ok more => rfl
    | error e => rfl

theorem readBlocks_ok (sch : Schema) (codec : CompressionCodec) (sync : List Nat)
    (hsync : sync.length = 16)
    (hcomp : ∀ bs, codec.comp bs = bs) (hdecomp : ∀ bs, codec.decomp bs = .ok bs) :
    ∀ (G : List (List Value)) (bfuel : Nat),
    (∀ g ∈ G, ∀ v ∈ g, Matches sch v = true) →
    (∀ g ∈ G, g.length < 2 ^ 63) →
    (∀ g ∈ G, ((g.map (encB sch)).flatten).length < 2 ^ 63) →
    (G.map (fun g => mkBlock codec sync (g.map (encB sch)))).flatten.length < bfuel →
    readBlocks sch codec sync bfuel
      ((G.map (fun g => mkBlock codec sync (g.map (encB sch)))).flatten) = .ok G.flatten := by
  intro G
  induction G with
  | nil =>
    intro bfuel _ _ _ hlt
    simp only [List.map_nil, List.flatten_nil]
    match bfuel, hlt with
    | b + 1, _ => rfl
  | cons g G ih =>
    intro bfuel hmat hcnt hpay hlt
    have h1 : 1 ≤ (mkBlock codec sync (g.map (encB sch))).length := by
      unfold mkBlock
      have hvn := varintEncode_ne_nil (zigzag ((g.map (encB sch)).length : Int))
      unfold encode_varint_zigzag
      cases hzz2 : varintEncode (zigzag ((g.map (encB sch)).length : Int)) with
      | nil => exact absurd hzz2 hvn
      | cons a l => simp
    have hsplit : ((g :: G).map (fun g2 => mkBlock codec sync (g2.map (encB sch)))).flatten
        = mkBlock codec sync (g.map (encB sch)) ++
          (G.map (fun g2 => mkBlock codec sync (g2.map (encB sch)))).flatten := rfl
    rw [hsplit, List.length_append] at hlt
    match bfuel, (by omega : 1 ≤ bfuel) with
    | bfuel + 1, _ =>
      have hstream : ((g :: G).map (fun g2 => mkBlock codec sync (g2.map (encB sch)))).flatten
          = encode_varint_zigzag (g.length : Int) ++
            (encode_varint_zigzag (((g.map (encB sch)).flatten).length : Int) ++
              ((g.map (encB sch)).flatten ++ (sync ++
                (G.map (fun g2 => mkBlock codec sync (g2.map (encB sch)))).flatten))) := by
        simp only [List.map_cons, List.flatten_cons]
        unfold mkBlock
        rw [hcomp]
        rw [show ((g.map (encB sch)).length) = g.length from by simp]
        simp [List.append_assoc]
      rw [hstream]
      rw [readBlocks_step sch codec sync hsync hdecomp g (hmat g (by simp))
        (hcnt g (by simp)) (hpay g (by simp)) bfuel
        ((G.map (fun g2 => mkBlock codec sync (g2.map (encB sch)))).flatten)]
      have hrest : (G.map (fun g2 => mkBlock codec sync (g2.map (encB sch)))).flatten.length
          < bfuel := by omega
      rw [ih bfuel (fun g2 hg2 => hmat g2 (by simp [hg2]))
        (fun g2 hg2 => hcnt g2 (by simp [hg2]))
        (fun g2 hg2 => hpay g2 (by simp [hg2])) hrest]
      rfl

theorem mem_flatten_length_le {α : Type} :
    ∀ (G : List (List α)) (g : List α), g ∈ G → g.length ≤ G.flatten.length := by
  intro G
  induction G with
  | nil =>
    intro g hg
    simp at hg
  | cons a G ih =>
    intro g hg
    rcases List.mem_cons.mp hg with h | h
    · subst h
      simp
    · have := ih g h
      rw [show (a :: G).flatten = a ++ G.flatten from rfl, List.length_append]
      omega

theorem mem_payload_length_le (sch : Schema) :
    ∀ (G : List (List Value)) (g : List Value), g ∈ G →
    ((g.map (encB sch)).flatten).length ≤ ((G.flatten.map (encB sch)).flatten).length := by
  intro G
  induction G with
  | nil =>
    intro g hg
    simp at hg
  | cons a G ih =>
    intro g hg
    have hsplit : ((a :: G).flatten.map (encB sch)).flatten
        = (a.map (encB sch)).flatten ++ (G.flatten.map (encB sch)).flatten := by
      rw [show (a :: G).flatten = a ++ G.flatten from rfl, List.map_append,
        List.flatten_append]
    rcases List.mem_cons.mp hg with h | h
    · subst h
      rw [hsplit, List.length_append]
      omega
    · have := ih g h
      rw [hsplit, List.length_append]
      omega

theorem cfAppendAll_spec (sch : Schema) (codecName : String) (codec : CompressionCodec)
    (sync : List Nat) (threshold : Nat) :
    ∀ (values : List Value) (w : CFWriter) (pend0 : List Value),
    w.sch = sch → w.codecName = codecName → w.codec = codec → w.sync = sync →
    w.threshold = threshold → w.buffer = pend0.map (encB sch) →
    (∀ v ∈ values, Matches sch v = true) →
    ∃ (w2 : CFWriter) (G : List (List Value)) (pend : List Value),
      cfAppendAll w values = .ok w2 ∧
      w2.sch = sch ∧ w2.codecName = codecName ∧ w2.codec = codec ∧ w2.sync = sync ∧
      w2.threshold = threshold ∧ w2.buffer = pend.map (encB sch) ∧
      w2.out = w.out ++ (G.map (fun g => mkBlock codec sync (g.map (encB sch)))).flatten ∧
      G.flatten ++ pend = pend0 ++ values := by
  intro values
  induction values with
  | nil =>
    intro w pend0 h1 h2 h3 h4 h5 h6 _
    exact ⟨w, [], pend0, rfl, h1, h2, h3, h4, h5, h6, by simp, by simp⟩
  | cons v vs ih =>
    intro w pend0 h1 h2 h3 h4 h5 h6 hmat
    have henc : encode w.sch v = .ok (encB sch v) := by
      rw [h1]
      exact (wrapper_roundtrip sch v (hmat v (by simp))).1
    by_cases hth : w.threshold ≤ w.buffer.length + 1
    · have hne : (w.buffer ++ [encB sch v]).isEmpty = false := by
        cases w.buffer <;> rfl
      have hflush : cfFlush { w with buffer := w.buffer ++ [encB sch v] }
          = { w with
              out := w.out ++ mkBlock w.codec w.sync (w.buffer ++ [encB sch v])
              buffer := [] } := by
        unfold cfFlush
        rw [show ({ w with buffer := w.buffer ++ [encB sch v] } : CFWriter).buffer
            = w.buffer ++ [encB sch v] from rfl]
        rw [hne]
        rfl
      have hstep : cfAppend w v = .ok { w with
          out := w.out ++ mkBlock w.codec w.sync (w.buffer ++ [encB sch v])
          buffer := [] } := by
        simp only [cfAppend, henc, if_pos hth]
        rw [hflush]
      rcases ih { w with
          out := w.out ++ mkBlock w.codec w.sync (w.buffer ++ [encB sch v])
          buffer := [] }
        [] h1 h2 h3 h4 h5 (by simp) (fun u hu => hmat u (by simp [hu])) with
        ⟨w2, G, pend, hrun, g1, g2, g3, g4, g5, g6, g7, g8⟩
      refine ⟨w2, (pend0 ++ [v]) :: G, pend, ?_, g1, g2, g3, g4, g5, g6, ?_, ?_⟩
      · simp only [cfAppendAll, hstep]
        exact hrun
      · rw [g7]
        show (w.out ++ mkBlock w.codec w.sync (w.buffer ++ [encB sch v])) ++
            (G.map (fun g => mkBlock codec sync (g.map (encB sch)))).flatten
          = w.out ++ (mkBlock codec sync ((pend0 ++ [v]).map (encB sch)) ++
            (G.map (fun g => mkBlock codec sync (g.map (encB sch)))).flatten)
        rw [h3, h4, h6]
        rw [show ((pend0 ++ [v]).map (encB sch))
            = pend0.map (encB sch) ++ [encB sch v] from by simp]
        simp [List.append_assoc]
      · rw [show ((pend0 ++ [v]) :: G).flatten = (pend0 ++ [v]) ++ G.flatten from rfl,
          List.append_assoc, g8]
        simp
    · have hstep : cfAppend w v = .ok { w with buffer := w.buffer ++ [encB sch v] } := by
        simp [cfAppend, henc, if_neg hth]
      rcases ih { w with buffer := w.buffer ++ [encB sch v] } (pend0 ++ [v])
        h1 h2 h3 h4 h5 (by simp [h6]) (fun u hu => hmat u (by simp [hu])) with
        ⟨w2, G, pend, hrun, g1, g2, g3, g4, g5, g6, g7, g8⟩
      refine ⟨w2, G, pend, ?_, g1, g2, g3, g4, g5, g6, g7, ?_⟩
      · simp only [cfAppendAll, hstep]
        exact hrun
      · rw [g8]
        simp

theorem cfAppendAll_noflush (sch : Schema) :
    ∀ (values : List Value) (w : CFWriter),
    w.sch = sch →
    (∀ v ∈ values, Matches sch v = true) →
    w.buffer.length + values.length < w.threshold →
    cfAppendAll w values = .ok { w with buffer := w.buffer ++ values.map (encB sch) } := by
  intro values
  induction values with
  | nil =>
    intro w _ _ _
    simp [cfAppendAll]
  | cons v vs ih =>
    intro w h1 hmat hlen
    have henc : encode w.sch v = .ok (encB sch v) := by
      rw [h1]
      exact (wrapper_roundtrip sch v (hmat v (by simp))).1
    have hth : ¬ (w.threshold ≤ w.buffer.length + 1) := by
      simp only [List.length_cons] at hlen
      omega
    have hstep : cfAppend w v = .ok { w with buffer := w.buffer ++ [encB sch v] } := by
      simp [cfAppend, henc, if_neg hth]
    have hih := ih { w with buffer := w.buffer ++ [encB sch v] } h1
      (fun u hu => hmat u (by simp [hu]))
      (by
        show (w.buffer ++ [encB sch v]).length + vs.length < w.threshold
        simp only [List.length_append, List.length_cons, List.length_nil]
        simp only [List.length_cons] at hlen
        omega)
    simp only [cfAppendAll, hstep]
    rw [hih]
    simp [List.append_assoc]

theorem matches_metaValue (sch : Schema)
    (h : (stringToUtf8 (schemaToText sch)).length < 2 ^ 63) :
    Matches metaSchema (metaValue sch "null") = true := by
  have hB1 : (stringToUtf8 (schemaToText sch)).all (fun b => decide (b < 256)) = true := by
    rw [List.all_eq_true]
    intro b hb
    exact decide_eq_true (utf8Encode_bytes (schemaToText sch).data b hb)
  show MatchesAux 3 metaSchema (metaValue sch "null") = true
  simp only [metaSchema, metaValue, MatchesAux, List.all_cons, List.all_nil,
    Bool.and_eq_true, Bool.and_true, decide_eq_true_eq]
  refine ⟨by simp, ⟨by decide, h, hB1⟩, by decide, by decide, by decide⟩

theorem readContainer_header (sch : Schema) (codec : CompressionCodec) (sync : List Nat)
    (hsync : sync.length = 16)
    (hcodecB : lookupCodecByBytes codecRegistry (stringToUtf8 "null") = some codec)
    (hmeta : (stringToUtf8 (schemaToText sch)).length < 2 ^ 63)
    (B : List Nat) (vs : List Value)
    (hrb : readBlocks sch codec sync (B.length + 1) B = .ok vs) :
    readContainer sch (headerBytes sch "null" sync ++ B) = .ok vs := by
  have hmv := wrapper_roundtrip metaSchema (metaValue sch "null") (matches_metaValue sch hmeta)
  have hfile : headerBytes sch "null" sync ++ B
      = MAGIC ++ (encB metaSchema (metaValue sch "null") ++ (sync ++ B)) := by
    simp [headerBytes, encB, List.append_assoc]
  have h4 : (MAGIC ++ (encB metaSchema (metaValue sch "null") ++ (sync ++ B))).take 4
      = MAGIC := by
    rw [show (4 : Nat) = MAGIC.length from rfl, List.take_left]
  have h4d : (MAGIC ++ (encB metaSchema (metaValue sch "null") ++ (sync ++ B))).drop 4
      = encB metaSchema (metaValue sch "null") ++ (sync ++ B) := by
    rw [show (4 : Nat) = MAGIC.length from rfl, List.drop_left]
  have hdec : decode metaSchema (encB metaSchema (metaValue sch "null") ++ (sync ++ B))
      = .ok (metaValue sch "null", sync ++ B) := hmv.2 _
  have hlf : lookupField "avro.codec"
      [("avro.schema", Value.vbytes (stringToUtf8 (schemaToText sch))),
       ("avro.codec", Value.vbytes (stringToUtf8 "null"))]
      = some (Value.vbytes (stringToUtf8 "null")) := rfl
  have h16 : ¬ ((sync ++ B).length < 16) := by
    rw [List.length_append, hsync]
    omega
  have ht16 : (sync ++ B).take 16 = sync := by
    rw [← hsync, List.take_left]
  have hd16 : (sync ++ B).drop 16 = B := by
    rw [← hsync, List.drop_left]
  rw [hfile]
  unfold readContainer
  simp only [h4, h4d, hdec, if_pos rfl]
  simp only [metaValue, hlf, hcodecB, ht16, hd16, if_neg h16, hrb, if_true]

theorem writeContainer_spec (sch : Schema) (codecName : String) (codec : CompressionCodec)
    (sync : List Nat) (threshold : Nat) (values : List Value)
    (hcodec : lookupCodec codecName = some codec)
    (hmat : ∀ v ∈ values, Matches sch v = true) :
    ∃ Gfin : List (List Value),
      writeContainer sch codecName sync threshold values
        = .ok (headerBytes sch codecName sync ++
          (Gfin.map (fun g => mkBlock codec sync (g.map (encB sch)))).flatten) ∧
      Gfin.flatten = values := by
  rcases cfAppendAll_spec sch codecName codec sync threshold values
    (cfOpen sch codecName codec sync threshold) [] rfl rfl rfl rfl rfl rfl hmat with
    ⟨w2, G, pend, hrun, g1, g2, g3, g4, g5, g6, g7, g8⟩
  by_cases hp : pend = []
  · have hfl : cfFlush w2 = w2 := by
      unfold cfFlush
      rw [g6, hp]
      rfl
    refine ⟨G, ?_, ?_⟩
    · simp only [writeContainer, hcodec, hrun, cfClose, hfl, g7]
      rfl
    · subst hp
      simpa using g8
  · have hne2 : (pend.map (encB sch)).isEmpty = false := by
      cases pend with
      | nil => exact absurd rfl hp
      | cons a l => rfl
    have hfl : cfFlush w2 = { w2 with
        out := w2.out ++ mkBlock w2.codec w2.sync (pend.map (encB sch))
        buffer := [] } := by
      unfold cfFlush
      rw [g6, hne2]
      rfl
    refine ⟨G ++ [pend], ?_, ?_⟩
    · simp only [writeContainer, hcodec, hrun, cfClose, hfl, g3, g4, g7]
      rw [show (cfOpen sch codecName codec sync threshold).out
          = headerBytes sch codecName sync from rfl]
      simp [List.append_assoc]
    · rw [show (G ++ [pend]).flatten = G.flatten ++ pend from by simp]
      exact g8

set_option maxHeartbeats 2000000 in
/-- C2: for every list of conforming values and every supported compression
codec, writing the values to a container file and then reading that file
back yields exactly the same values in the same order (so the number of
records read equals the number written). -/
theorem claim_C2_container_roundtrip
    (sch : Schema) (codecName : String) (codec : CompressionCodec)
    (sync : List Nat) (threshold : Nat) (values : List Value)
    (hcodec : lookupCodec codecName = some codec)
    (hsync : sync.length = 16)
    (hmat : ∀ v ∈ values, Matches sch v = true)
    (hcount : values.length < 2 ^ 63)
    (hbytes : ((values.map (encB sch)).flatten).length < 2 ^ 63)
    (hmeta : (stringToUtf8 (schemaToText sch)).length < 2 ^ 63) :
    ∃ file, writeContainer sch codecName sync threshold values = .ok file ∧
      readContainer sch file = .ok values := by
  rcases lookupCodec_props codecName codec hcodec with ⟨hname, hcomp, hdecomp, hbb⟩
  subst hname
  rcases writeContainer_spec sch "null" codec sync threshold values hcodec hmat with
    ⟨Gfin, hw, hflat⟩
  refine ⟨_, hw, ?_⟩
  have hmatG : ∀ g ∈ Gfin, ∀ v ∈ g, Matches sch v = true := by
    intro g hg v hv
    exact hmat v (by rw [← hflat]; exact List.mem_flatten.mpr ⟨g, hg, hv⟩)
  have hcntG : ∀ g ∈ Gfin, g.length < 2 ^ 63 := by
    intro g hg
    have := mem_flatten_length_le Gfin g hg
    rw [hflat] at this
    omega
  have hpayG : ∀ g ∈ Gfin, ((g.map (encB sch)).flatten).length < 2 ^ 63 := by
    intro g hg
    have := mem_payload_length_le sch Gfin g hg
    rw [hflat] at this
    omega
  have hrb := readBlocks_ok sch codec sync hsync hcomp hdecomp Gfin
    (((Gfin.map (fun g => mkBlock codec sync (g.map (encB sch)))).flatten).length + 1)
    hmatG hcntG hpayG (by omega)
  have hread := readContainer_header sch codec sync hsync hbb hmeta _ _ hrb
  rw [hread, hflat]

set_option maxRecDepth 40000 in
set_option maxHeartbeats 4000000 in
theorem claim_C2_container_roundtrip_witness :
    ∃ file, writeContainer SCHEMA "null" (List.replicate 16 7) 2
        [create_person 0, create_person 1, create_person 2] = .ok file ∧
      readContainer SCHEMA file
        = .ok [create_person 0, create_person 1, create_person 2] :=
  claim_C2_container_roundtrip SCHEMA "null" ⟨fun bs => bs, fun bs => .ok bs⟩
    (List.replicate 16 7) 2 [create_person 0, create_person 1, create_person 2]
    rfl rfl (by decide) (by decide) (by decide) (by decide)

set_option maxHeartbeats 2000000 in
/-- C7: closing a container writer flushes every record still in the write
buffer even when the buffered count is below the flush threshold: after
appending records that never trigger a flush, the buffer holds all of them,
the output is still only the header, and the closed file reads back every
appended record, none silently dropped. -/
theorem claim_C7_close_flush
    (sch : Schema) (codecName : String) (codec : CompressionCodec)
    (sync : List Nat) (threshold : Nat) (values : List Value)
    (hcodec : lookupCodec codecName = some codec)
    (hsync : sync.length = 16)
    (hmat : ∀ v ∈ values, Matches sch v = true)
    (hne : values ≠ [])
    (hth : values.length < threshold)
    (hcount : values.length < 2 ^ 63)
    (hbytes : ((values.map (encB sch)).flatten).length < 2 ^ 63)
    (hmeta : (stringToUtf8 (schemaToText sch)).length < 2 ^ 63) :
    ∃ w, cfAppendAll (cfOpen sch codecName codec sync threshold) values = .ok w ∧
      w.buffer = values.map (encB sch) ∧
      w.out = headerBytes sch codecName sync ∧
      readContainer sch (cfClose w) = .ok values := by
  rcases lookupCodec_props codecName codec hcodec with ⟨hname, hcomp, hdecomp, hbb⟩
  subst hname
  have hrun := cfAppendAll_noflush sch values (cfOpen sch "null" codec sync threshold)
    rfl hmat
    (by
      show ([] : List (List Nat)).length + values.length < threshold
      simpa using hth)
  have hrun2 : cfAppendAll (cfOpen sch "null" codec sync threshold) values
      = .ok (⟨sch, "null", codec, sync, threshold, values.map (encB sch),
          headerBytes sch "null" sync⟩ : CFWriter) := hrun
  refine ⟨_, hrun2, rfl, rfl, ?_⟩
  · have hb : (values.map (encB sch)).isEmpty = false := by
      cases values with
      | nil => exact absurd rfl hne
      | cons a l => rfl
    have hclose : cfClose (⟨sch, "null", codec, sync, threshold, values.map (encB sch),
          headerBytes sch "null" sync⟩ : CFWriter)
        = headerBytes sch "null" sync ++ mkBlock codec sync (values.map (encB sch)) := by
      unfold cfClose cfFlush
      rw [show ((⟨sch, "null", codec, sync, threshold, values.map (encB sch),
          headerBytes sch "null" sync⟩ : CFWriter)).buffer
        = values.map (encB sch) from rfl]
      rw [hb]
      rfl
    have hB : ([values].map (fun g => mkBlock codec sync (g.map (encB sch)))).flatten
        = mkBlock codec sync (values.map (encB sch)) := by
      simp
    have hrb := readBlocks_ok sch codec sync hsync hcomp hdecomp [values]
      ((([values].map (fun g => mkBlock codec sync (g.map (encB sch)))).flatten).length + 1)
      (by
        intro g hg v hv
        simp at hg
        subst hg
        exact hmat v hv)
      (by
        intro g hg
        simp at hg
        subst hg
        exact hcount)
      (by
        intro g hg
        simp at hg
        subst hg
        exact hbytes)
      (by omega)
    have hread := readContainer_header sch codec sync hsync hbb hmeta _ _ hrb
    rw [hclose, ← hB, hread]
    simp

set_option maxRecDepth 40000 in
set_option maxHeartbeats 4000000 in
theorem claim_C7_close_flush_witness :
    ∃ w, cfAppendAll (cfOpen SCHEMA "null" ⟨fun bs => bs, fun bs => .ok bs⟩
        (List.replicate 16 7) 5) [create_person 0, create_person 1] = .ok w ∧
      w.buffer = [create_person 0, create_person 1].map (encB SCHEMA) ∧
      w.out = headerBytes SCHEMA "null" (List.replicate 16 7) ∧
      readContainer SCHEMA (cfClose w) = .ok [create_person 0, create_person 1] :=
  claim_C7_close_flush SCHEMA "null" ⟨fun bs => bs, fun bs => .ok bs⟩
    (List.replicate 16 7) 5 [create_person 0, create_person 1]
    rfl rfl (by decide) (List.cons_ne_nil _ _) (by decide) (by decide) (by decide) (by decide)

/-- The action main dispatches to: one of the three benchmarks, or the
usage-error path, which prints the message to stderr and exits the process
with the given status code (print(..., file=sys.stderr); sys.exit(1)). -/
inductive BenchAction
  | benchEncode (count : Int)
  | benchDecode (count : Int)
  | benchContainer (count : Int) (compression : String)
  | usageError (stderrMsg : String) (exitCode : Nat)

/-- sys.argv[1] if len(sys.argv) > 1 else "encode". -/
def mainOperation (argv : List String) : String :=
  (argv[1]?).getD "encode"

/-- int(sys.argv[2]) if len(sys.argv) > 2 else 10000; the int builtin is an
external collaborator, passed in as toInt. -/
def mainCount (toInt : String → Int) (argv : List String) : Int :=
  match argv[2]? with
  | some s2 => toInt s2
  | none => 10000

/-- sys.argv[3] if len(sys.argv) > 3 else "null". -/
def mainCompression (argv : List String) : String :=
  (argv[3]?).getD "null"

/-- The dispatch chain of main: equality tests on the operation in source
order, with the usage message built from sys.argv[0]. -/
def mainDispatch (toInt : String → Int) (argv : List String) : BenchAction :=
  if mainOperation argv = "encode" then .benchEncode (mainCount toInt argv)
  else if mainOperation argv = "decode" then .benchDecode (mainCount toInt argv)
  else if mainOperation argv = "container" then
    .benchContainer (mainCount toInt argv) (mainCompression argv)
  else .usageError ("Usage: " ++ ((argv[0]?).getD "") ++
    " [encode|decode|container] [count] [compression]") 1

/-- File-set semantics of benchmark_container: NamedTemporaryFile with
delete=False creates the temporary path, the write/read phases run as one
body that may raise (their outcome and resulting file set are the pair the
phases argument returns), and the finally block unlinks the temporary path
if it still exists.  A raised error propagates after the finally block, so
the returned pair carries both the outcome and the final file set. -/
def benchmark_container_fs (fs0 : List String) (tempPath : String)
    (phases : List String → Except AvroError Unit × List String) :
    Except AvroError Unit × List String :=
  let fs1 := fs0 ++ [tempPath]
  let fs2 := (phases fs1).2
  let fs3 := if tempPath ∈ fs2 then fs2.filter (fun p => !(p == tempPath)) else fs2
  ((phases fs1).1, fs3)

/-- C8: with command-line arguments missing, main substitutes the defaults:
operation "encode", record count 10000, compression codec name "null"; in
particular a bare invocation dispatches to the encode benchmark with count
10000. -/
theorem claim_C8_defaults (toInt : String → Int) (prog op c2 : String) :
    mainOperation [prog] = "encode" ∧
    mainCount toInt [prog] = 10000 ∧
    mainCompression [prog] = "null" ∧
    mainDispatch toInt [prog] = .benchEncode 10000 ∧
    mainCount toInt [prog, op] = 10000 ∧
    mainCompression [prog, op] = "null" ∧
    mainCompression [prog, op, c2] = "null" :=
  ⟨rfl, rfl, rfl, rfl, rfl, rfl, rfl⟩

/-- C9: for every operation argument that is none of encode, decode and
container, main runs no benchmark: it dispatches to the usage-error action,
whose message goes to stderr and whose exit status is 1. -/
theorem claim_C9_invalid_op (toInt : String → Int) (argv : List String)
    (h1 : mainOperation argv ≠ "encode")
    (h2 : mainOperation argv ≠ "decode")
    (h3 : mainOperation argv ≠ "container") :
    mainDispatch toInt argv
      = .usageError ("Usage: " ++ ((argv[0]?).getD "") ++
          " [encode|decode|container] [count] [compression]") 1 := by
  unfold mainDispatch
  rw [if_neg h1, if_neg h2, if_neg h3]

theorem claim_C9_invalid_op_witness :
    mainDispatch (fun _ => 0) ["prog", "bogus"]
      = .usageError "Usage: prog [encode|decode|container] [count] [compression]" 1 :=
  claim_C9_invalid_op (fun _ => 0) ["prog", "bogus"]
    (by decide) (by decide) (by decide)

/-- C10: benchmark_container always deletes the temporary file it created
before returning - also when the write or read phase raises - provided the
phases only touch the temporary path: the final file set never contains the
temporary path, it is exactly the initial file set minus that path, and the
body outcome (success or raised error) is passed through. -/
theorem claim_C10_temp_deleted (fs0 : List String) (tempPath : String)
    (phases : List String → Except AvroError Unit × List String)
    (hframe : ∀ fs, ((phases fs).2).filter (fun p => !(p == tempPath))
      = fs.filter (fun p => !(p == tempPath))) :
    tempPath ∉ (benchmark_container_fs fs0 tempPath phases).2 ∧
    (benchmark_container_fs fs0 tempPath phases).2
      = fs0.filter (fun p => !(p == tempPath)) ∧
    (benchmark_container_fs fs0 tempPath phases).1
      = (phases (fs0 ++ [tempPath])).1 := by
  have h1 : (fs0 ++ [tempPath]).filter (fun p => !(p == tempPath))
      = fs0.filter (fun p => !(p == tempPath)) := by
    rw [List.filter_append]
    simp
  have heq : (benchmark_container_fs fs0 tempPath phases).2
      = fs0.filter (fun p => !(p == tempPath)) := by
    show (if tempPath ∈ (phases (fs0 ++ [tempPath])).2
        then ((phases (fs0 ++ [tempPath])).2).filter (fun p => !(p == tempPath))
        else (phases (fs0 ++ [tempPath])).2)
      = fs0.filter (fun p => !(p == tempPath))
    by_cases hmem : tempPath ∈ (phases (fs0 ++ [tempPath])).2
    · rw [if_pos hmem, hframe (fs0 ++ [tempPath]), h1]
    · rw [if_neg hmem]
      have hself : ((phases (fs0 ++ [tempPath])).2).filter (fun p => !(p == tempPath))
          = (phases (fs0 ++ [tempPath])).2 :=
        List.filter_eq_self.mpr (fun a ha => by
          simp only [Bool.not_eq_eq_eq_not, Bool.not_true, beq_eq_false_iff_ne]
          intro he
          exact hmem (he ▸ ha))
      rw [← hself, hframe (fs0 ++ [tempPath]), h1]
  refine ⟨?_, heq, rfl⟩
  rw [heq]
  intro hmem
  rcases List.mem_filter.mp hmem with ⟨_, hb⟩
  simp at hb

theorem claim_C10_temp_deleted_witness :
    "bench.avro" ∉ (benchmark_container_fs ["data.txt"] "bench.avro"
        (fun fs => (.error .TruncatedInput, fs))).2 ∧
    (benchmark_container_fs ["data.txt"] "bench.avro"
        (fun fs => (.error .TruncatedInput, fs))).2
      = (["data.txt"] : List String).filter (fun p => !(p == "bench.avro")) ∧
    (benchmark_container_fs ["data.txt"] "bench.avro"
        (fun fs => (.error .TruncatedInput, fs))).1
      = ((fun (fs : List String) => ((.error .TruncatedInput : Except AvroError Unit), fs))
          (["data.txt"] ++ ["bench.avro"])).1 :=
  claim_C10_temp_deleted ["data.txt"] "bench.avro"
    (fun fs => (.error .TruncatedInput, fs)) (fun fs => rfl)

end AvroSpec